import Mathlib

/-!
Verification of the Advent-of-Code solutions repository against its
specification.  The repository holds three independent components:

* a report safety checker (`Reports`, from the unnamed Go source),
* a distance/similarity calculator (`Calc01` for the Go source,
  `CalcJS` for the JavaScript source),
* an instruction scanner (`Scan03`, from the Go source `03.go`).

Each component's functions are shallowly embedded as Lean functions over
the parsed inputs (lists of lines, lists of integers, lists of
characters).  File input/output is out of scope, as the specification
states.  Go's `int` is 64 bits wide in this program.  Values are carried
as the unbounded `Int`/`Nat`, and wherever a claim depends on the machine
width the embedding is bit-exact: `goAtoi` performs `strconv.Atoi`'s
int64 range check, and the scanner's `partOne64`/`partTwo64` accumulate
with two's-complement wraparound (`wrap64`) and skip a match whose
capture fails `Atoi`, exactly as the source does.  `Scan03.partOne` and
`Scan03.partTwo` are the arithmetic idealisations of the same loops (no
wrap, no skip), kept for the toggle-equivalence development, whose two
sides idealise identically.
-/

/-- Whitespace test used by Go's `strings.Fields`, restricted to the ASCII
whitespace characters (`'\t'`, `'\n'`, `'\v'`, `'\f'`, `'\r'`, `' '`);
the non-ASCII Unicode space classes are irrelevant to the claims. -/
def goIsSpace (c : Char) : Bool :=
  c = ' ' || c = '\t' || c = '\n' || c = '\x0b' || c = '\x0c' || c = '\r'

/-- Numeric value of a decimal digit character. -/
def digitVal (c : Char) : Nat := c.toNat - ('0').toNat

/-- Numeric value of a list of decimal digit characters, most significant
first. -/
def valDigits (l : List Char) : Nat := l.foldl (fun a c => 10 * a + digitVal c) 0

/-- Accumulator pass of `strings.Fields`: splits a character list into
maximal runs of non-whitespace characters.  `acc` holds the characters of
the current run in reverse. -/
def fieldsAux : List Char → List Char → List (List Char)
  | [], acc => if acc.isEmpty then [] else [acc.reverse]
  | c :: t, acc =>
    if goIsSpace c then
      if acc.isEmpty then fieldsAux t [] else acc.reverse :: fieldsAux t []
    else fieldsAux t (c :: acc)

/-- Go's `strings.Fields`: the whitespace-separated fields of a line. -/
def strFields (s : String) : List String :=
  (fieldsAux s.data []).map (fun f => String.mk f)

/-- Largest value of Go's 64-bit `int`, `2^63 - 1`. -/
def int64Max : Nat := 9223372036854775807

/-- Digit-run part of `strconv.Atoi`: a nonempty list of decimal digits
whose value fits Go's 64-bit `int` (`-2^63 .. 2^63 - 1`, so a negated
magnitude may reach `int64Max + 1`); otherwise a syntax or range
error. -/
def atoiDigits (neg : Bool) (ds : List Char) : Except String Int :=
  if ds ≠ [] ∧ ds.all Char.isDigit then
    if neg then
      if valDigits ds ≤ int64Max + 1 then Except.ok (-((valDigits ds : Nat) : Int))
      else Except.error "value out of range"
    else
      if valDigits ds ≤ int64Max then Except.ok ((valDigits ds : Nat) : Int)
      else Except.error "value out of range"
  else Except.error "invalid syntax"

/-- Go's `strconv.Atoi`: an optional sign followed by one or more decimal
digits, with the int64 range check. -/
def goAtoi (s : String) : Except String Int :=
  match s.data with
  | [] => Except.error "invalid syntax"
  | c :: ds =>
    if c = '+' then atoiDigits false ds
    else if c = '-' then atoiDigits true ds
    else atoiDigits false (c :: ds)

/-- Value of a field whose `goAtoi` parse succeeded (`0` as an unused
default). -/
def goVal (s : String) : Int := ((goAtoi s).toOption).getD 0

namespace Reports

/-- Conversion of one line's fields, mirroring the inner loop of the report
checker's `readPuzzleInput`: the first failing `strconv.Atoi` panics, which
the embedding renders as the `Except` error short-circuit. -/
def atoiAll : List String → Except String (List Int)
  | [] => Except.ok []
  | f :: fs =>
    match goAtoi f with
    | Except.error e => Except.error e
    | Except.ok v =>
      match atoiAll fs with
      | Except.error e => Except.error e
      | Except.ok vs => Except.ok (v :: vs)

/-- The report checker's `readPuzzleInput` on the file's lines: every line
is parsed into a report which is appended unconditionally; any failing
integer conversion panics (an `Except` error here). -/
def readPuzzleInput : List String → Except String (List (List Int))
  | [] => Except.ok []
  | line :: rest =>
    match atoiAll (strFields line) with
    | Except.error e => Except.error e
    | Except.ok r =>
      match readPuzzleInput rest with
      | Except.error e => Except.error e
      | Except.ok rs => Except.ok (r :: rs)

/-- The report checker's `isSafe`: both monotonicity flags start true and
each consecutive difference clears the flags it violates. -/
def isSafe (report : List Int) : Bool :=
  let diffs := List.zipWith (fun a b => a - b) (report.drop 1) report
  diffs.all (fun d => !(decide (d < 1) || decide (d > 3))) ||
    diffs.all (fun d => !(decide (d < -3) || decide (d > -1)))

/-- The report checker's `canBeSafe`: for each index `i` the element at `i`
is removed and the remainder tested with `isSafe`. -/
def canBeSafe (report : List Int) : Bool :=
  (List.range report.length).any (fun i =>
    isSafe (report.take i ++ report.drop (i + 1)))

/-- The report checker's `partOne`: the count of safe reports. -/
def partOne (reports : List (List Int)) : Nat :=
  reports.foldl (fun n r => if isSafe r then n + 1 else n) 0

/-- The report checker's `partTwo`: the count of reports that can be made
safe by removing one element. -/
def partTwo (reports : List (List Int)) : Nat :=
  reports.foldl (fun n r => if canBeSafe r then n + 1 else n) 0

end Reports

namespace Calc01

/-- Pair-collecting loop of the calculator's `readPuzzleInput`: a line with
at least two fields whose first two fields both parse contributes one value
to each column; every other line is skipped with a warning. -/
def readPairs : List String → List Int × List Int
  | [] => ([], [])
  | line :: rest =>
    let parts := strFields line
    if parts.length ≥ 2 then
      match goAtoi (parts.getD 0 ""), goAtoi (parts.getD 1 "") with
      | Except.ok l, Except.ok r =>
        ((l :: (readPairs rest).1), (r :: (readPairs rest).2))
      | _, _ => readPairs rest
    else readPairs rest

/-- Ascending sort of a column, modelling Go's `sort.Ints` (any correct
ascending sort of integers produces the same list). -/
def sortInts (l : List Int) : List Int := List.insertionSort (fun a b => a ≤ b) l

/-- The Go calculator's `readPuzzleInput`: the parsed columns, each sorted
ascending. -/
def readPuzzleInput (lines : List String) : List Int × List Int :=
  (sortInts (readPairs lines).1, sortInts (readPairs lines).2)

/-- The Go calculator's `partOne`: the loop sums `|left[i] - right[i]|` for
every index `i` below `left`'s length (`getD` stands for the in-bounds
indexing, which claim C9 justifies). -/
def partOne (left right : List Int) : Int :=
  (List.range left.length).foldl (fun sum i => sum + |left.getD i 0 - right.getD i 0|) 0

/-- The Go calculator's `partTwo`: a frequency map is built from the right
column (modelled as a function with default count `0`, which is also the
map's missing-key default in Go), then each left value is weighted by its
frequency. -/
def partTwo (left right : List Int) : Int :=
  let freq : Int → Int := right.foldl (fun f v => fun x => if x = v then f x + 1 else f x) (fun _ => 0)
  left.foldl (fun sum l => sum + l * freq l) 0

end Calc01

namespace CalcJS

/-- Lexicographic comparison of character lists by code point, modelling
the string ordering of JavaScript's default `Array.prototype.sort`
comparator. -/
def lexLt : List Char → List Char → Bool
  | [], [] => false
  | [], _ :: _ => true
  | _ :: _, [] => false
  | a :: ta, b :: tb =>
    if a.toNat < b.toNat then true
    else if b.toNat < a.toNat then false
    else lexLt ta tb

/-- JavaScript's default sort of an array of strings: ascending in the
lexicographic string order (stable, as required since ES2019). -/
def jsSort (l : List String) : List String :=
  List.insertionSort (fun a b => lexLt a.data b.data = true) l

/-- JavaScript's `Number(x)` restricted to integer-numeral strings, the
only inputs the claims evaluate it on (`Number("") = 0` also holds in
JavaScript; NaN-producing inputs are outside the modelled domain). -/
def jsNumber (s : String) : Int :=
  match s.data with
  | '-' :: ds => if ds ≠ [] ∧ ds.all Char.isDigit then -((valDigits ds : Nat) : Int) else 0
  | ds => if ds ≠ [] ∧ ds.all Char.isDigit then ((valDigits ds : Nat) : Int) else 0

/-- The JavaScript calculator's `partOne`: both string columns are sorted
with the default comparator, then `|Number(left[i]) - Number(right[i])|`
is summed over the indices of the left column. -/
def partOne (left right : List String) : Int :=
  (List.range (jsSort left).length).foldl
    (fun sum i => sum + |jsNumber ((jsSort left).getD i "") - jsNumber ((jsSort right).getD i "")|) 0

/-- The JavaScript calculator's `partTwo`: each left string's numeric value
is weighted by the number of strictly-equal (`===`) elements of the right
column. -/
def partTwo (left right : List String) : Int :=
  left.foldl (fun sum x => sum + jsNumber x * (((right.filter (fun e => e = x)).length : Nat) : Int)) 0

end CalcJS

namespace Scan03

/-- Maximal-munch step of the `mul` matcher: a maximal nonempty run of
digits followed by the delimiter; returns the digit run and what follows
the delimiter. -/
def afterDigits (t : List Char) (delim : Char) : Option (List Char × List Char) :=
  match t.dropWhile Char.isDigit with
  | c :: rest =>
    if c = delim ∧ t.takeWhile Char.isDigit ≠ [] then some (t.takeWhile Char.isDigit, rest)
    else none
  | [] => none

/-- Matcher for the regular expression `mul\((\d+),(\d+)\)` anchored at the
start of a character list: the literal `mul(`, a maximal nonempty digit
run, `','`, a maximal nonempty digit run and `')'`.  On success it returns
the exact numeric values of the two captured digit runs and the
characters after the match.  A capture is a nonempty digit run, so its
value alone determines the later `strconv.Atoi` outcome: the conversion
fails exactly when the value exceeds `int64Max` (see
`goAtoi_digit_run`).  Greediness never backtracks here because each digit
run must be followed by a non-digit delimiter. -/
def tryMul (s : List Char) : Option (Nat × Nat × List Char) :=
  match s with
  | c1 :: c2 :: c3 :: c4 :: u =>
    if c1 = 'm' ∧ c2 = 'u' ∧ c3 = 'l' ∧ c4 = '(' then
      match afterDigits u ',' with
      | some (d1, v) =>
        match afterDigits v ')' with
        | some (d2, w) => some (valDigits d1, valDigits d2, w)
        | none => none
      | none => none
    else none
  | _ => none

/-- Characters consumed by a successful `mul(d1,d2)` match. -/
def mulCore (d1 d2 : List Char) : List Char :=
  'm' :: 'u' :: 'l' :: '(' :: (d1 ++ ',' :: (d2 ++ [')']))

theorem afterDigits_some {t : List Char} {delim : Char} {d rest : List Char}
    (h : afterDigits t delim = some (d, rest)) :
    t = d ++ delim :: rest ∧ d ≠ [] ∧ d.all Char.isDigit = true := by
  unfold afterDigits at h
  cases hdrop : t.dropWhile Char.isDigit with
  | nil => rw [hdrop] at h; simp at h
  | cons c v =>
    rw [hdrop] at h
    simp only [] at h
    split at h
    · rename_i hcond
      obtain ⟨rfl, hne⟩ := hcond
      simp only [Option.some.injEq, Prod.mk.injEq] at h
      obtain ⟨rfl, rfl⟩ := h
      refine ⟨?_, hne, List.all_takeWhile⟩
      conv_lhs => rw [← List.takeWhile_append_dropWhile Char.isDigit t]
      rw [hdrop]
    · simp at h

theorem afterDigits_append (d : List Char) (delim : Char) (rest : List Char)
    (hne : d ≠ []) (hdig : d.all Char.isDigit = true) (hdelim : delim.isDigit = false) :
    afterDigits (d ++ delim :: rest) delim = some (d, rest) := by
  have hall : ∀ a ∈ d, Char.isDigit a = true := by
    intro a ha
    exact List.all_eq_true.mp hdig a ha
  unfold afterDigits
  rw [List.dropWhile_append_of_pos hall, List.takeWhile_append_of_pos hall]
  rw [List.dropWhile_cons_of_neg (by simp [hdelim]), List.takeWhile_cons_of_neg (by simp [hdelim])]
  simp [hne]

theorem tryMul_some_shape {s : List Char} {a b : Nat} {r : List Char}
    (h : tryMul s = some (a, b, r)) :
    ∃ d1 d2, s = mulCore d1 d2 ++ r ∧ d1 ≠ [] ∧ d2 ≠ [] ∧
      d1.all Char.isDigit = true ∧ d2.all Char.isDigit = true ∧
      a = valDigits d1 ∧ b = valDigits d2 := by
  unfold tryMul at h
  split at h
  · rename_i c1 c2 c3 c4 u
    split at h
    · rename_i hc
      obtain ⟨rfl, rfl, rfl, rfl⟩ := hc
      split at h
      · rename_i d1 v heq
        split at h
        · rename_i d2 w heq2
          simp only [Option.some.injEq, Prod.mk.injEq] at h
          obtain ⟨ha, hb, rfl⟩ := h
          obtain ⟨hu, hd1, hdig1⟩ := afterDigits_some heq
          obtain ⟨hv, hd2, hdig2⟩ := afterDigits_some heq2
          refine ⟨d1, d2, ?_, hd1, hd2, hdig1, hdig2, ha.symm, hb.symm⟩
          subst hu hv
          simp [mulCore]
        · exact absurd h (by simp)
      · exact absurd h (by simp)
    · exact absurd h (by simp)
  · exact absurd h (by simp)

theorem tryMul_mulCore (d1 d2 : List Char) (hd1 : d1 ≠ []) (hd2 : d2 ≠ [])
    (hdig1 : d1.all Char.isDigit = true) (hdig2 : d2.all Char.isDigit = true)
    (rest : List Char) :
    tryMul (mulCore d1 d2 ++ rest) = some (valDigits d1, valDigits d2, rest) := by
  have e : mulCore d1 d2 ++ rest =
      'm' :: 'u' :: 'l' :: '(' :: (d1 ++ ',' :: (d2 ++ ')' :: rest)) := by
    simp [mulCore]
  rw [e]
  simp only [tryMul]
  rw [afterDigits_append d1 ',' (d2 ++ ')' :: rest) hd1 hdig1 (by decide)]
  simp only []
  rw [afterDigits_append d2 ')' rest hd2 hdig2 (by decide)]
  simp

theorem tryMul_rest_length {s : List Char} {a b : Nat} {r : List Char}
    (h : tryMul s = some (a, b, r)) : r.length < s.length := by
  obtain ⟨d1, d2, hs, -, -, -, -, -, -⟩ := tryMul_some_shape h
  subst hs
  simp [mulCore]
  omega

theorem tryMul_none_of_ne {c : Char} {t : List Char} (hc : c ≠ 'm') :
    tryMul (c :: t) = none := by
  cases t with
  | nil => rfl
  | cons x xs =>
    cases xs with
    | nil => rfl
    | cons y ys =>
      cases ys with
      | nil => rfl
      | cons z zs =>
        simp only [tryMul]
        rw [if_neg]
        intro hcon
        exact hc hcon.1

theorem tryMul_extend {s : List Char} {a b : Nat} {r : List Char}
    (h : tryMul s = some (a, b, r)) (e : List Char) :
    tryMul (s ++ e) = some (a, b, r ++ e) := by
  obtain ⟨d1, d2, hs, hd1, hd2, hdig1, hdig2, ha, hb⟩ := tryMul_some_shape h
  subst hs ha hb
  rw [List.append_assoc]
  exact tryMul_mulCore d1 d2 hd1 hd2 hdig1 hdig2 (r ++ e)

/-- The scanner's `getMatches` (Go's `FindAllStringSubmatch` for the `mul`
pattern): successive leftmost non-overlapping matches, moving to the next
character after a failed position and resuming after each match's end.
The source returns the capture strings; here each match carries the exact
values of its two captured digit runs, from which the source's later
`Atoi` conversion is reconstructed (`goAtoi_digit_run`). -/
def getMatches : List Char → List (Nat × Nat)
  | [] => []
  | c :: t =>
    match h : tryMul (c :: t) with
    | some (a, b, r) => (a, b) :: getMatches r
    | none => getMatches t
termination_by s => s.length
decreasing_by
  · exact tryMul_rest_length h
  · simp

/-- The scanner's `partOne` under the arithmetic idealisation: the sum of
the products of the captured pairs over all matches, with no 64-bit wrap
and no skipping of out-of-range captures.  `partOne64` below is the
bit-exact model of the source loop; this idealised form is used by the
toggle-equivalence development, whose two sides idealise identically. -/
def partOne (s : List Char) : Int :=
  ((getMatches s).map (fun p => ((p.1 : Nat) : Int) * ((p.2 : Nat) : Int))).sum

/-- Occurrence of the `mul` pattern at position `i` of the memory text:
the anchored matcher applied to the suffix starting at `i`, keeping the
two captured values.  Claim C6 characterises the scan as the enumeration
of the occurrences at every position, in order of appearance. -/
def specOccur (s : List Char) (i : Nat) : Option (Nat × Nat) :=
  (tryMul (s.drop i)).map (fun x => (x.1, x.2.1))

/-- Literal `don't()`. -/
def dontPat7 : List Char := ("don't()").data

/-- Literal `don't`, the pattern `strings.Index(memory, "don't")` searches
for in the source's `partTwo`. -/
def dontPat5 : List Char := ("don't").data

/-- Literal `do()`. -/
def doPat4 : List Char := ("do()").data

/-- Index of the first occurrence of `pat` in a list, modelling Go's
`strings.Index` (`none` for Go's `-1`; `strings.Contains` is the
`isSome` of this). -/
def firstIdx (pat : List Char) : List Char → Option Nat
  | [] => if pat.isPrefixOf ([] : List Char) then some 0 else none
  | c :: t => if pat.isPrefixOf (c :: t) then some 0 else (firstIdx pat t).map (fun n => n + 1)

theorem firstIdx_isPrefixOf {pat s : List Char} {i : Nat}
    (h : firstIdx pat s = some i) : pat.isPrefixOf (s.drop i) = true := by
  induction s generalizing i with
  | nil =>
    unfold firstIdx at h
    split at h
    · simp only [Option.some.injEq] at h
      subst h
      assumption
    · simp at h
  | cons c t ih =>
    unfold firstIdx at h
    split at h
    · simp only [Option.some.injEq] at h
      subst h
      assumption
    · simp only [Option.map_eq_some'] at h
      obtain ⟨j, hj, rfl⟩ := h
      simpa using ih hj

theorem firstIdx_le_length {pat s : List Char} {i : Nat}
    (h : firstIdx pat s = some i) : i ≤ s.length := by
  induction s generalizing i with
  | nil =>
    unfold firstIdx at h
    split at h
    · simp only [Option.some.injEq] at h
      omega
    · simp at h
  | cons c t ih =>
    unfold firstIdx at h
    split at h
    · simp only [Option.some.injEq] at h
      omega
    · simp only [Option.map_eq_some'] at h
      obtain ⟨j, hj, rfl⟩ := h
      have := ih hj
      simp
      omega

theorem prefix_getD_eq {p s : List Char} (h : p.isPrefixOf s = true) (k : Nat)
    (hk : k < p.length) : s.getD k ' ' = p.getD k ' ' := by
  rw [List.isPrefixOf_iff_prefix] at h
  obtain ⟨t, rfl⟩ := h
  simp [List.getD, List.getElem?_append, hk]

theorem prefix_clash {p q s : List Char} (k : Nat)
    (hk1 : k < p.length) (hk2 : k < q.length)
    (hne : p.getD k ' ' ≠ q.getD k ' ')
    (h1 : p.isPrefixOf s = true) : q.isPrefixOf s = false := by
  by_contra hq
  simp only [Bool.not_eq_false] at hq
  exact hne ((prefix_getD_eq h1 k hk1).symm.trans (prefix_getD_eq hq k hk2))

theorem dont5_not_do4 {s : List Char} (h : dontPat5.isPrefixOf s = true) :
    doPat4.isPrefixOf s = false :=
  prefix_clash 2 (by decide) (by decide) (by decide) h

theorem do4_not_dont5 {s : List Char} (h : doPat4.isPrefixOf s = true) :
    dontPat5.isPrefixOf s = false :=
  prefix_clash 2 (by decide) (by decide) (by decide) h

/-- The scanner's `partTwo`: while enabled, if the text contains
`don't()` the sum splits at the index of the first `don't` — the bare
five-character pattern, exactly as in the source — into `partOne` of the
prefix plus the disabled scan of the suffix; while disabled, the scan
resumes enabled at the first `do()`, or ends.  The inner `none` branch is
unreachable (a `don't()` occurrence is a `don't` occurrence) but keeps
the model total.  Sums are idealised exactly as in `partOne`;
`partTwo64` below is the bit-exact counterpart. -/
def partTwo (s : List Char) (enabled : Bool) : Int :=
  if enabled then
    match firstIdx dontPat7 s with
    | some _ =>
      match h : firstIdx dontPat5 s with
      | some i => partOne (s.take i) + partTwo (s.drop i) false
      | none => partOne s
    | none => partOne s
  else
    match h : firstIdx doPat4 s with
    | some i => partTwo (s.drop i) true
    | none => 0
termination_by
  2 * s.length +
    (if enabled then (if doPat4.isPrefixOf s then 0 else 1)
     else (if dontPat5.isPrefixOf s then 0 else 1))
decreasing_by
  · have hd : dontPat5.isPrefixOf (s.drop i) = true := firstIdx_isPrefixOf h
    have hle : i ≤ s.length := firstIdx_le_length h
    cases enabled with
    | false => simp_all
    | true =>
      rcases Nat.eq_zero_or_pos i with hi | hi
      · subst hi
        simp only [List.drop_zero] at hd ⊢
        simp [hd, dont5_not_do4 hd]
      · simp only [List.length_drop]
        (repeat' split) <;> omega
  · have hd : doPat4.isPrefixOf (s.drop i) = true := firstIdx_isPrefixOf h
    have hle : i ≤ s.length := firstIdx_le_length h
    cases enabled with
    | true => simp_all
    | false =>
      rcases Nat.eq_zero_or_pos i with hi | hi
      · subst hi
        simp only [List.drop_zero] at hd ⊢
        simp [hd, do4_not_dont5 hd]
      · simp only [List.length_drop]
        (repeat' split) <;> omega

/-- Spec model of Part 2, from the specification's words: a single
left-to-right scan carrying the enabled flag, which `don't()` clears and
`do()` sets; a `mul` match found while enabled adds its product and the
scan resumes after it; any other character is stepped over. -/
def specScan (s : List Char) (enabled : Bool) : Int :=
  if s = [] then 0
  else if dontPat7.isPrefixOf s then specScan (s.drop 7) false
  else if doPat4.isPrefixOf s then specScan (s.drop 4) true
  else if enabled then
    match h : tryMul s with
    | some (a, b, r) => ((a : Nat) : Int) * ((b : Nat) : Int) + specScan r true
    | none => specScan (s.drop 1) enabled
  else specScan (s.drop 1) enabled
termination_by s.length
decreasing_by
  · have hs : s ≠ [] := by assumption
    have h0 : 0 < s.length := List.length_pos.mpr hs
    rw [List.length_drop]
    omega
  · have hs : s ≠ [] := by assumption
    have h0 : 0 < s.length := List.length_pos.mpr hs
    rw [List.length_drop]
    omega
  · exact tryMul_rest_length h
  · have hs : s ≠ [] := by assumption
    have h0 : 0 < s.length := List.length_pos.mpr hs
    rw [List.length_drop]
    omega
  · have hs : s ≠ [] := by assumption
    have h0 : 0 < s.length := List.length_pos.mpr hs
    rw [List.length_drop]
    omega

/-- Memory texts in which every occurrence of `don't` starts a full
`don't()` (bounded over the text's positions, hence decidable; a position
at or past the end has no occurrence at all). -/
def goodDont (s : List Char) : Prop :=
  ∀ i < s.length, dontPat5.isPrefixOf (s.drop i) = true →
    dontPat7.isPrefixOf (s.drop i) = true

instance (s : List Char) : Decidable (goodDont s) := by
  unfold goodDont
  infer_instance

end Scan03

namespace Scan03

theorem getMatches_nil : getMatches [] = [] := by
  rw [getMatches]

theorem getMatches_cons_some {c : Char} {t : List Char} {a b : Nat} {r : List Char}
    (h : tryMul (c :: t) = some (a, b, r)) :
    getMatches (c :: t) = (a, b) :: getMatches r := by
  rw [getMatches]
  split
  · rename_i a' b' r' heq
    rw [h] at heq
    simp only [Option.some.injEq, Prod.mk.injEq] at heq
    obtain ⟨rfl, rfl, rfl⟩ := heq
    rfl
  · rename_i heq
    rw [h] at heq
    cases heq

theorem getMatches_cons_none {c : Char} {t : List Char}
    (h : tryMul (c :: t) = none) : getMatches (c :: t) = getMatches t := by
  rw [getMatches]
  split
  · rename_i a' b' r' heq
    rw [h] at heq
    cases heq
  · rfl

theorem partOne_nil : partOne [] = 0 := by
  simp [partOne, getMatches_nil]

theorem partTwo_enabled_split {s : List Char} {j i : Nat}
    (h7 : firstIdx dontPat7 s = some j) (h5 : firstIdx dontPat5 s = some i) :
    partTwo s true = partOne (s.take i) + partTwo (s.drop i) false := by
  rw [partTwo]
  rw [if_pos rfl]
  split
  · split
    · rename_i heq
      rw [h5] at heq
      simp only [Option.some.injEq] at heq
      subst heq
      rfl
    · rename_i heq
      rw [h5] at heq
      cases heq
  · rename_i heq
    rw [h7] at heq
    cases heq

theorem partTwo_enabled_none {s : List Char}
    (h7 : firstIdx dontPat7 s = none) : partTwo s true = partOne s := by
  rw [partTwo]
  rw [if_pos rfl]
  split
  · rename_i j heq
    rw [h7] at heq
    cases heq
  · rfl

theorem partTwo_disabled_jump {s : List Char} {i : Nat}
    (h : firstIdx doPat4 s = some i) : partTwo s false = partTwo (s.drop i) true := by
  rw [partTwo]
  rw [if_neg (by simp)]
  split
  · rename_i heq
    rw [h] at heq
    simp only [Option.some.injEq] at heq
    subst heq
    rfl
  · rename_i heq
    rw [h] at heq
    cases heq

theorem partTwo_disabled_none {s : List Char}
    (h : firstIdx doPat4 s = none) : partTwo s false = 0 := by
  rw [partTwo]
  rw [if_neg (by simp)]
  split
  · rename_i heq
    rw [h] at heq
    cases heq
  · rfl

theorem specScan_nil (e : Bool) : specScan [] e = 0 := by
  rw [specScan]
  rfl

theorem specScan_dont7 {s : List Char} (e : Bool) (hne : s ≠ [])
    (h : dontPat7.isPrefixOf s = true) : specScan s e = specScan (s.drop 7) false := by
  rw [specScan, if_neg hne, if_pos h]

theorem specScan_do4 {s : List Char} (e : Bool) (hne : s ≠ [])
    (h7 : dontPat7.isPrefixOf s = false) (h4 : doPat4.isPrefixOf s = true) :
    specScan s e = specScan (s.drop 4) true := by
  rw [specScan, if_neg hne, if_neg (by simp [h7]), if_pos h4]

theorem specScan_mul {s : List Char} {a b : Nat} {r : List Char} (hne : s ≠ [])
    (h7 : dontPat7.isPrefixOf s = false) (h4 : doPat4.isPrefixOf s = false)
    (hm : tryMul s = some (a, b, r)) :
    specScan s true = ((a : Nat) : Int) * ((b : Nat) : Int) + specScan r true := by
  rw [specScan, if_neg hne, if_neg (by simp [h7]), if_neg (by simp [h4]), if_pos rfl]
  split
  · rename_i a' b' r' heq
    rw [hm] at heq
    simp only [Option.some.injEq, Prod.mk.injEq] at heq
    obtain ⟨rfl, rfl, rfl⟩ := heq
    rfl
  · rename_i heq
    rw [hm] at heq
    cases heq

theorem specScan_step_true {s : List Char} (hne : s ≠ [])
    (h7 : dontPat7.isPrefixOf s = false) (h4 : doPat4.isPrefixOf s = false)
    (hm : tryMul s = none) : specScan s true = specScan (s.drop 1) true := by
  rw [specScan, if_neg hne, if_neg (by simp [h7]), if_neg (by simp [h4]), if_pos rfl]
  split
  · rename_i heq
    rw [hm] at heq
    cases heq
  · rfl

theorem specScan_step_false {s : List Char} (hne : s ≠ [])
    (h7 : dontPat7.isPrefixOf s = false) (h4 : doPat4.isPrefixOf s = false) :
    specScan s false = specScan (s.drop 1) false := by
  rw [specScan, if_neg hne, if_neg (by simp [h7]), if_neg (by simp [h4])]
  rfl

end Scan03

namespace Scan03

theorem partTwo_cex : partTwo (("don'tmul(1,1)don't()").data) true = 0 := by
  rw [partTwo_enabled_split
    (show firstIdx dontPat7 (("don'tmul(1,1)don't()").data) = some 13 from by decide)
    (show firstIdx dontPat5 (("don'tmul(1,1)don't()").data) = some 0 from by decide)]
  rw [List.take_zero, List.drop_zero, partOne_nil]
  rw [partTwo_disabled_none (by decide)]
  rfl

theorem specScan_cex : specScan (("don'tmul(1,1)don't()").data) true = 1 := by
  rw [specScan_step_true (by decide) (by decide) (by decide) (by decide)]
  rw [show (("don'tmul(1,1)don't()").data.drop 1) = ("on'tmul(1,1)don't()").data from by decide]
  rw [specScan_step_true (by decide) (by decide) (by decide) (by decide)]
  rw [show (("on'tmul(1,1)don't()").data.drop 1) = ("n'tmul(1,1)don't()").data from by decide]
  rw [specScan_step_true (by decide) (by decide) (by decide) (by decide)]
  rw [show (("n'tmul(1,1)don't()").data.drop 1) = ("'tmul(1,1)don't()").data from by decide]
  rw [specScan_step_true (by decide) (by decide) (by decide) (by decide)]
  rw [show (("'tmul(1,1)don't()").data.drop 1) = ("tmul(1,1)don't()").data from by decide]
  rw [specScan_step_true (by decide) (by decide) (by decide) (by decide)]
  rw [show (("tmul(1,1)don't()").data.drop 1) = ("mul(1,1)don't()").data from by decide]
  rw [specScan_mul (by decide) (by decide) (by decide)
    (show tryMul (("mul(1,1)don't()").data) = some (1, 1, ("don't()").data) from by decide)]
  rw [specScan_dont7 true (by decide) (by decide)]
  rw [show (("don't()").data.drop 7) = ([] : List Char) from by decide]
  rw [specScan_nil]
  rfl

end Scan03

namespace Reports

theorem isSafe_drop_one {r : List Int} (h : isSafe r = true) : isSafe (r.drop 1) = true := by
  match r with
  | [] => exact h
  | [a] => rfl
  | a :: b :: t =>
    rw [isSafe] at h ⊢
    simp only [Bool.or_eq_true] at h ⊢
    simp only [List.drop_one, List.tail_cons] at *
    rcases h with h | h
    · left
      rw [List.zipWith_cons_cons, List.all_cons, Bool.and_eq_true] at h
      exact h.2
    · right
      rw [List.zipWith_cons_cons, List.all_cons, Bool.and_eq_true] at h
      exact h.2

/-- Counterexample to claim C1 as stated: the empty report is safe under
`isSafe`, yet `canBeSafe` returns `false` on it (its loop body never
runs). -/
theorem canBeSafe_empty_cex :
    Reports.isSafe ([] : List Int) = true ∧ Reports.canBeSafe ([] : List Int) = false := by
  decide

/-- Claim C1 as amended: for every nonempty report, `canBeSafe` returns
true exactly when the report is safe or some single removal makes it
safe; the empty report is the one exception, where `canBeSafe` is false
although `isSafe` holds. -/
theorem canBeSafe_iff_exists_removal (r : List Int) (hne : r ≠ []) :
    canBeSafe r = true ↔
      (isSafe r = true ∨
        ∃ i, i < r.length ∧ isSafe (r.take i ++ r.drop (i + 1)) = true) := by
  rw [canBeSafe, List.any_eq_true]
  constructor
  · rintro ⟨i, hmem, hp⟩
    rw [List.mem_range] at hmem
    exact Or.inr ⟨i, hmem, hp⟩
  · rintro (hs | ⟨i, hi, hp⟩)
    · refine ⟨0, ?_, ?_⟩
      · rw [List.mem_range]
        exact List.length_pos.mpr hne
      · simpa using isSafe_drop_one hs
    · exact ⟨i, List.mem_range.mpr hi, hp⟩

/-- Witness for the amended claim C1 at the specification's worked
example `[1,3,2,4,5]`. -/
theorem canBeSafe_removal_witness :
    Reports.canBeSafe [1, 3, 2, 4, 5] = true ↔
      (Reports.isSafe [1, 3, 2, 4, 5] = true ∨
        ∃ i, i < ([1, 3, 2, 4, 5] : List Int).length ∧
          Reports.isSafe (([1, 3, 2, 4, 5] : List Int).take i ++
            ([1, 3, 2, 4, 5] : List Int).drop (i + 1)) = true) :=
  canBeSafe_iff_exists_removal [1, 3, 2, 4, 5] (by decide)

end Reports

namespace Reports

theorem atoiAll_isOk (fs : List String) :
    (atoiAll fs).isOk = fs.all (fun f => (goAtoi f).isOk) := by
  induction fs with
  | nil => rfl
  | cons f fs ih =>
    rw [atoiAll]
    cases hf : goAtoi f with
    | error e =>
      rw [List.all_cons, hf,
        show (Except.error e : Except String Int).isOk = false from rfl, Bool.false_and]
      rfl
    | ok v =>
      rw [List.all_cons, hf,
        show (Except.ok v : Except String Int).isOk = true from rfl, Bool.true_and, ← ih]
      cases ha : atoiAll fs with
      | error e => rfl
      | ok vs => rfl

theorem readPuzzleInput_isOk (lines : List String) :
    (readPuzzleInput lines).isOk = lines.all (fun l => (atoiAll (strFields l)).isOk) := by
  induction lines with
  | nil => rfl
  | cons l ls ih =>
    rw [readPuzzleInput]
    cases hl : atoiAll (strFields l) with
    | error e =>
      rw [List.all_cons, hl,
        show (Except.error e : Except String (List Int)).isOk = false from rfl, Bool.false_and]
      rfl
    | ok r =>
      rw [List.all_cons, hl,
        show (Except.ok r : Except String (List Int)).isOk = true from rfl, Bool.true_and, ← ih]
      cases hr : readPuzzleInput ls with
      | error e => rfl
      | ok rs => rfl

theorem atoiAll_ok_map {fs : List String} {vs : List Int}
    (h : atoiAll fs = Except.ok vs) : vs = fs.map goVal := by
  induction fs generalizing vs with
  | nil =>
    rw [atoiAll] at h
    simp only [Except.ok.injEq] at h
    subst h
    rfl
  | cons f fs ih =>
    rw [atoiAll] at h
    cases hf : goAtoi f with
    | error e => rw [hf] at h; cases h
    | ok v =>
      rw [hf] at h
      cases ha : atoiAll fs with
      | error e => rw [ha] at h; cases h
      | ok vs' =>
        rw [ha] at h
        simp only [Except.ok.injEq] at h
        subst h
        rw [List.map_cons, ← ih ha]
        have : goVal f = v := by
          rw [goVal, hf]
          rfl
        rw [this]

theorem readPuzzleInput_ok_map {lines : List String} {reports : List (List Int)}
    (h : readPuzzleInput lines = Except.ok reports) :
    reports = lines.map (fun line => (strFields line).map goVal) := by
  induction lines generalizing reports with
  | nil =>
    rw [readPuzzleInput] at h
    simp only [Except.ok.injEq] at h
    subst h
    rfl
  | cons l ls ih =>
    rw [readPuzzleInput] at h
    cases hl : atoiAll (strFields l) with
    | error e => rw [hl] at h; cases h
    | ok r =>
      rw [hl] at h
      cases hr : readPuzzleInput ls with
      | error e => rw [hr] at h; cases h
      | ok rs =>
        rw [hr] at h
        simp only [Except.ok.injEq] at h
        subst h
        rw [List.map_cons, ← ih hr, ← atoiAll_ok_map hl]

/-- Claim C8: parsing fails (the model of the panic) exactly when some
whitespace-separated field of some line is rejected by `strconv.Atoi`,
and otherwise every line contributes the report of its parsed fields. -/
theorem readPuzzleInput_fatal_iff (lines : List String) :
    ((readPuzzleInput lines).isOk = false ↔
      ∃ line ∈ lines, ∃ f ∈ strFields line, (goAtoi f).isOk = false) ∧
    (∀ reports, readPuzzleInput lines = Except.ok reports →
      reports = lines.map (fun line => (strFields line).map goVal)) := by
  constructor
  · rw [readPuzzleInput_isOk]
    rw [List.all_eq_false]
    constructor
    · rintro ⟨l, hl, hfail⟩
      simp only [Bool.not_eq_true] at hfail
      rw [atoiAll_isOk, List.all_eq_false] at hfail
      obtain ⟨f, hf, hfail⟩ := hfail
      simp only [Bool.not_eq_true] at hfail
      exact ⟨l, hl, f, hf, hfail⟩
    · rintro ⟨l, hl, f, hf, hfail⟩
      refine ⟨l, hl, ?_⟩
      simp only [Bool.not_eq_true]
      rw [atoiAll_isOk, List.all_eq_false]
      refine ⟨f, hf, ?_⟩
      simp only [Bool.not_eq_true]
      exact hfail
  · intro reports h
    exact readPuzzleInput_ok_map h

/-- Counterexample to claim C7 as stated: an empty line is not skipped;
it parses to the empty report, which appears in the returned list. -/
theorem empty_report_cex : Reports.readPuzzleInput [""] = Except.ok [[]] := rfl

/-- Claim C7 as amended: every line whose fields all parse is appended as
a report, so a line with no fields contributes an empty report to the
list handed to `partOne` and `partTwo` (and malformed lines are not
skipped: they abort parsing, per claim C8). -/
theorem empty_line_empty_report (lines : List String) (reports : List (List Int))
    (line : String) (h : readPuzzleInput lines = Except.ok reports)
    (hmem : line ∈ lines) (hempty : strFields line = []) :
    ([] : List Int) ∈ reports := by
  have hmap := readPuzzleInput_ok_map h
  subst hmap
  rw [List.mem_map]
  exact ⟨line, hmem, by rw [hempty]; rfl⟩

/-- Witness for the amended claim C7 at the single empty line. -/
theorem empty_report_witness :
    Reports.readPuzzleInput [""] = Except.ok [[]] ∧ ([] : List Int) ∈ [([] : List Int)] :=
  ⟨rfl, empty_line_empty_report [""] [[]] "" rfl (by decide) rfl⟩

end Reports

namespace Calc01

theorem readPairs_length (lines : List String) :
    (readPairs lines).1.length = (readPairs lines).2.length := by
  induction lines with
  | nil => rfl
  | cons line rest ih =>
    rw [readPairs]
    split
    · split
      · simpa using ih
      · exact ih
    · exact ih

/-- Claim C9: the two columns returned by the Go calculator's
`readPuzzleInput` always have equal length (values are appended only in
pairs), so the mismatched-length warning branch is unreachable and every
index `partOne` uses on the left column is in bounds for the right
column. -/
theorem readPuzzleInput_equal_lengths (lines : List String) :
    (Calc01.readPuzzleInput lines).1.length = (Calc01.readPuzzleInput lines).2.length ∧
    (∀ i, i < (Calc01.readPuzzleInput lines).1.length →
      i < (Calc01.readPuzzleInput lines).2.length) := by
  have h := readPairs_length lines
  have he : (readPuzzleInput lines).1.length = (readPuzzleInput lines).2.length := by
    rw [readPuzzleInput]
    simp only [sortInts, List.length_insertionSort]
    exact h
  exact ⟨he, fun i hi => he ▸ hi⟩

/-- Claim C5: on the specification's example columns the calculator's
Part 1 is 11 and Part 2 is 31, in both the Go and the JavaScript
implementations (the JavaScript one receives the columns as strings). -/
theorem example_columns_results :
    Calc01.partOne (Calc01.sortInts [3, 4, 2, 1, 3, 3]) (Calc01.sortInts [4, 3, 5, 3, 9, 3]) = 11 ∧
    Calc01.partTwo [3, 4, 2, 1, 3, 3] [4, 3, 5, 3, 9, 3] = 31 ∧
    CalcJS.partOne ["3", "4", "2", "1", "3", "3"] ["4", "3", "5", "3", "9", "3"] = 11 ∧
    CalcJS.partTwo ["3", "4", "2", "1", "3", "3"] ["4", "3", "5", "3", "9", "3"] = 31 := by
  decide

end Calc01

namespace Scan03

theorem digit_ne (c x : Char) (hd : c.isDigit = true) (hx : x.isDigit = false) : c ≠ x := by
  intro h
  subst h
  rw [hd] at hx
  cases hx

theorem mulCore_eq_cons (d1 d2 : List Char) (r : List Char) :
    mulCore d1 d2 ++ r = 'm' :: ('u' :: 'l' :: '(' :: (d1 ++ ',' :: (d2 ++ [')']))) ++ r := by
  simp [mulCore]

theorem mulCore_drop_one_ne_m {d1 d2 : List Char}
    (hdig1 : d1.all Char.isDigit = true) (hdig2 : d2.all Char.isDigit = true) :
    ∀ c ∈ (mulCore d1 d2).drop 1, c ≠ 'm' := by
  intro c hc
  simp only [mulCore, List.drop_succ_cons, List.drop_zero, List.mem_cons, List.mem_append,
    List.mem_singleton] at hc
  rcases hc with rfl | rfl | rfl | hc | rfl | hc | rfl | hc
  · decide
  · decide
  · decide
  · exact digit_ne c 'm' (List.all_eq_true.mp hdig1 c hc) (by decide)
  · decide
  · exact digit_ne c 'm' (List.all_eq_true.mp hdig2 c hc) (by decide)
  · decide
  · cases hc

theorem mulCore_ne_d {d1 d2 : List Char}
    (hdig1 : d1.all Char.isDigit = true) (hdig2 : d2.all Char.isDigit = true) :
    ∀ c ∈ mulCore d1 d2, c ≠ 'd' := by
  intro c hc
  simp only [mulCore, List.mem_cons, List.mem_append, List.mem_singleton] at hc
  rcases hc with rfl | rfl | rfl | rfl | hc | rfl | hc | rfl | hc
  · decide
  · decide
  · decide
  · decide
  · exact digit_ne c 'd' (List.all_eq_true.mp hdig1 c hc) (by decide)
  · decide
  · exact digit_ne c 'd' (List.all_eq_true.mp hdig2 c hc) (by decide)
  · decide
  · cases hc

theorem drop_append_head (pre rest : List Char) (i : Nat) (h : i < pre.length) :
    ∃ x xs, (pre ++ rest).drop i = x :: xs ∧ x ∈ pre.drop i := by
  rw [List.drop_append_eq_append_drop]
  have h0 : i - pre.length = 0 := by omega
  rw [h0, List.drop_zero]
  have hne : pre.drop i ≠ [] := by
    intro he
    rw [List.drop_eq_nil_iff_le] at he
    omega
  obtain ⟨x, xs', he⟩ := List.exists_cons_of_ne_nil hne
  refine ⟨x, xs' ++ rest, ?_, ?_⟩
  · rw [he, List.cons_append]
  · rw [he]
    exact List.mem_cons_self ..

theorem mem_drop_of_mem_drop_ge {x : Char} {l : List Char} {i j : Nat} (hij : j ≤ i)
    (h : x ∈ l.drop i) : x ∈ l.drop j := by
  have : l.drop i = (l.drop j).drop (i - j) := by
    rw [List.drop_drop]
    congr 1
    omega
  rw [this] at h
  exact List.mem_of_mem_drop h

theorem getMatches_append_ne_m {pre : List Char} (s : List Char)
    (hpre : ∀ c ∈ pre, c ≠ 'm') : getMatches (pre ++ s) = getMatches s := by
  induction pre with
  | nil => rw [List.nil_append]
  | cons c pre ih =>
    rw [List.cons_append,
      getMatches_cons_none (tryMul_none_of_ne (hpre c (List.mem_cons_self ..)))]
    exact ih fun x hx => hpre x (List.mem_cons_of_mem c hx)

theorem getMatches_eq_nil_ne_m {l : List Char} (hl : ∀ c ∈ l, c ≠ 'm') :
    getMatches l = [] := by
  have := getMatches_append_ne_m ([] : List Char) hl
  rw [List.append_nil] at this
  rw [this, getMatches_nil]

theorem partOne_append_ne_m {pre : List Char} (s : List Char)
    (hpre : ∀ c ∈ pre, c ≠ 'm') : partOne (pre ++ s) = partOne s := by
  rw [partOne, getMatches_append_ne_m s hpre, partOne]

theorem partOne_cons_mulCore {d1 d2 : List Char} (r : List Char)
    (hd1 : d1 ≠ []) (hd2 : d2 ≠ [])
    (hdig1 : d1.all Char.isDigit = true) (hdig2 : d2.all Char.isDigit = true) :
    partOne (mulCore d1 d2 ++ r) =
      ((valDigits d1 : Nat) : Int) * ((valDigits d2 : Nat) : Int) + partOne r := by
  have hm := tryMul_mulCore d1 d2 hd1 hd2 hdig1 hdig2 r
  rw [mulCore_eq_cons, List.cons_append] at hm ⊢
  rw [partOne, getMatches_cons_some hm, List.map_cons, List.sum_cons, partOne]

theorem partOne_nonneg (s : List Char) : 0 ≤ partOne s := by
  rw [partOne]
  refine List.sum_nonneg ?_
  intro x hx
  rw [List.mem_map] at hx
  obtain ⟨p, hp, rfl⟩ := hx
  exact mul_nonneg (Int.natCast_nonneg _) (Int.natCast_nonneg _)

theorem partOne_cons_none {c : Char} {t : List Char} (h : tryMul (c :: t) = none) :
    partOne (c :: t) = partOne t := by
  rw [partOne, getMatches_cons_none h, partOne]

end Scan03

namespace Scan03

theorem partOne_eq_zero_ne_m {l : List Char} (hl : ∀ c ∈ l, c ≠ 'm') : partOne l = 0 := by
  rw [partOne, getMatches_eq_nil_ne_m hl]
  rfl

theorem tryMul_take_none {s : List Char} {a b : Nat} {r : List Char}
    (hm : tryMul s = some (a, b, r)) {i : Nat} (hi : i < s.length - r.length) :
    tryMul (s.take i) = none := by
  cases htm : tryMul (s.take i) with
  | none => rfl
  | some x =>
    exfalso
    obtain ⟨a', b', r'⟩ := x
    have hext := tryMul_extend htm (s.drop i)
    rw [List.take_append_drop, hm] at hext
    simp only [Option.some.injEq, Prod.mk.injEq] at hext
    have hr := hext.2.2
    have hlen := congrArg List.length hr
    have hrl : r.length < s.length := tryMul_rest_length hm
    simp only [List.length_append, List.length_drop] at hlen
    omega

theorem partOne_split_le_aux :
    ∀ n, ∀ s : List Char, s.length ≤ n → ∀ i,
      partOne (s.take i) + partOne (s.drop i) ≤ partOne s := by
  intro n
  induction n with
  | zero =>
    intro s hs i
    have hnil : s = [] := by
      cases s with
      | nil => rfl
      | cons c t => simp at hs
    subst hnil
    simp [partOne_nil]
  | succ n ih =>
    intro s hs i
    cases s with
    | nil => simp [partOne_nil]
    | cons c t =>
      cases hm : tryMul (c :: t) with
      | some x =>
        obtain ⟨a, b, r⟩ := x
        obtain ⟨d1, d2, hsh, hd1, hd2, hg1, hg2, ha, hb⟩ := tryMul_some_shape hm
        have hrn : r.length ≤ n := by
          have := tryMul_rest_length hm
          simp only [List.length_cons] at this hs
          omega
        have hlen : (c :: t).length = (mulCore d1 d2).length + r.length := by
          rw [hsh]
          simp
        by_cases hi : (mulCore d1 d2).length ≤ i
        · have htake : (c :: t).take i = mulCore d1 d2 ++ r.take (i - (mulCore d1 d2).length) := by
            rw [hsh, List.take_append_eq_append_take, List.take_of_length_le hi]
          have hdrop : (c :: t).drop i = r.drop (i - (mulCore d1 d2).length) := by
            rw [hsh, List.drop_append_eq_append_drop, List.drop_eq_nil_of_le hi, List.nil_append]
          rw [htake, hdrop, hsh]
          rw [partOne_cons_mulCore _ hd1 hd2 hg1 hg2, partOne_cons_mulCore _ hd1 hd2 hg1 hg2]
          have ihr := ih r hrn (i - (mulCore d1 d2).length)
          linarith
        · push_neg at hi
          have hcm : c = 'm' := by
            rw [mulCore_eq_cons, List.cons_append] at hsh
            injection hsh
          subst hcm
          have hteq : t = ('u' :: 'l' :: '(' :: (d1 ++ ',' :: (d2 ++ [')']))) ++ r := by
            rw [mulCore_eq_cons, List.cons_append] at hsh
            injection hsh
          have hctail : ('u' :: 'l' :: '(' :: (d1 ++ ',' :: (d2 ++ [')']))) =
              (mulCore d1 d2).drop 1 := by
            simp [mulCore]
          have hLct : ('u' :: 'l' :: '(' :: (d1 ++ ',' :: (d2 ++ [')']))).length + 1 =
              (mulCore d1 d2).length := by
            rw [mulCore]
            simp
          have htake0 : partOne (('m' :: t).take i) = 0 := by
            cases i with
            | zero => simp [partOne_nil]
            | succ j =>
              have hnone := tryMul_take_none hm (show j + 1 < ('m' :: t).length - r.length by omega)
              rw [List.take_succ_cons] at hnone ⊢
              rw [partOne_cons_none hnone]
              rw [hteq, List.take_append_of_le_length (by omega)]
              refine partOne_eq_zero_ne_m ?_
              intro x hx
              have hx' := List.take_subset _ _ hx
              rw [hctail] at hx'
              exact mulCore_drop_one_ne_m hg1 hg2 x hx'
          have hdropLe : partOne (('m' :: t).drop i) ≤ partOne ('m' :: t) := by
            cases i with
            | zero => simp
            | succ j =>
              have hj : j ≤ ('u' :: 'l' :: '(' :: (d1 ++ ',' :: (d2 ++ [')']))).length := by
                omega
              rw [List.drop_succ_cons, hteq, List.drop_append_eq_append_drop,
                show j - ('u' :: 'l' :: '(' :: (d1 ++ ',' :: (d2 ++ [')']))).length = 0 from
                  by omega,
                List.drop_zero]
              rw [partOne_append_ne_m r ?hne]
              case hne =>
                intro x hx
                have hx' : x ∈ ('u' :: 'l' :: '(' :: (d1 ++ ',' :: (d2 ++ [')']))) :=
                  List.mem_of_mem_drop hx
                rw [hctail] at hx'
                exact mulCore_drop_one_ne_m hg1 hg2 x hx'
              have hgoal : ('m' :: ('u' :: 'l' :: '(' :: (d1 ++ ',' :: (d2 ++ [')'])) ++ r)) =
                  mulCore d1 d2 ++ r := by
                simp [mulCore]
              rw [hgoal, partOne_cons_mulCore _ hd1 hd2 hg1 hg2]
              have h1 : (0 : Int) ≤ ((valDigits d1 : Nat) : Int) * ((valDigits d2 : Nat) : Int) :=
                mul_nonneg (Int.natCast_nonneg _) (Int.natCast_nonneg _)
              linarith
          rw [htake0]
          linarith
      | none =>
        cases i with
        | zero => simp [partOne_nil]
        | succ j =>
          have hnt : tryMul (c :: t.take j) = none := by
            cases htm : tryMul (c :: t.take j) with
            | none => rfl
            | some x =>
              exfalso
              obtain ⟨a', b', r'⟩ := x
              have hext := tryMul_extend htm (t.drop j)
              rw [List.cons_append, List.take_append_drop, hm] at hext
              cases hext
          rw [List.take_succ_cons, List.drop_succ_cons, partOne_cons_none hnt,
            partOne_cons_none hm]
          refine ih t ?_ j
          simp only [List.length_cons] at hs
          omega

theorem partOne_split_le (s : List Char) (i : Nat) :
    partOne (s.take i) + partOne (s.drop i) ≤ partOne s :=
  partOne_split_le_aux s.length s le_rfl i

theorem partOne_drop_le (s : List Char) (i : Nat) :
    partOne (s.drop i) ≤ partOne s := by
  have h1 := partOne_split_le s i
  have h2 := partOne_nonneg (s.take i)
  linarith

end Scan03

namespace Scan03

theorem filterMap_range_single (L : Nat) (f : Nat → Option (Nat × Nat)) (v : Nat × Nat)
    (hL : 0 < L) (h0 : f 0 = some v) (hrest : ∀ j, 0 < j → j < L → f j = none) :
    (List.range L).filterMap f = [v] := by
  obtain ⟨m, rfl⟩ : ∃ m, L = m + 1 := ⟨L - 1, by omega⟩
  rw [List.range_succ_eq_map, List.filterMap_cons, h0, List.filterMap_map]
  have hnil : List.filterMap (f ∘ Nat.succ) (List.range m) = [] := by
    rw [List.filterMap_eq_nil]
    intro a ha
    rw [List.mem_range] at ha
    exact hrest (a + 1) (by omega) (by omega)
  rw [hnil]

theorem mulCore_length_pos (d1 d2 : List Char) : 0 < (mulCore d1 d2).length := by
  rw [mulCore]
  simp

theorem getMatches_eq_filterMap_aux :
    ∀ n, ∀ s : List Char, s.length ≤ n →
      getMatches s = (List.range s.length).filterMap (fun i => specOccur s i) := by
  intro n
  induction n with
  | zero =>
    intro s hs
    have hnil : s = [] := by
      cases s with
      | nil => rfl
      | cons c t => simp at hs
    subst hnil
    simp [getMatches_nil]
  | succ n ih =>
    intro s hs
    cases s with
    | nil => simp [getMatches_nil]
    | cons c t =>
      cases hm : tryMul (c :: t) with
      | some x =>
        obtain ⟨a, b, r⟩ := x
        obtain ⟨d1, d2, hsh, hd1, hd2, hg1, hg2, ha, hb⟩ := tryMul_some_shape hm
        have hrn : r.length ≤ n := by
          have := tryMul_rest_length hm
          simp only [List.length_cons] at this hs
          omega
        have hlen : (c :: t).length = (mulCore d1 d2).length + r.length := by
          rw [hsh]
          simp
        rw [getMatches_cons_some hm, hlen, List.range_add, List.filterMap_append,
          List.filterMap_map]
        have hfirst : (List.range (mulCore d1 d2).length).filterMap
            (fun i => specOccur (c :: t) i) = [(a, b)] := by
          refine filterMap_range_single _ _ _ (mulCore_length_pos d1 d2) ?_ ?_
          · simp [specOccur, hm]
          · intro j hj0 hjL
            obtain ⟨x, xs, hx, hxmem⟩ := drop_append_head (mulCore d1 d2) r j hjL
            rw [specOccur, hsh, hx]
            rw [tryMul_none_of_ne
              (mulCore_drop_one_ne_m hg1 hg2 x (mem_drop_of_mem_drop_ge hj0 hxmem))]
            rfl
        have hsecond : (List.range r.length).filterMap
            ((fun i => specOccur (c :: t) i) ∘ (fun x => (mulCore d1 d2).length + x)) =
            (List.range r.length).filterMap (fun i => specOccur r i) := by
          refine List.filterMap_congr ?_
          intro j hj
          show specOccur (c :: t) ((mulCore d1 d2).length + j) = specOccur r j
          rw [specOccur, specOccur, hsh, List.drop_append_eq_append_drop,
            show List.drop ((mulCore d1 d2).length + j) (mulCore d1 d2) = [] from
              List.drop_eq_nil_of_le (by omega),
            List.nil_append]
          have hjj : (mulCore d1 d2).length + j - (mulCore d1 d2).length = j := by omega
          rw [hjj]
        rw [hfirst, hsecond, ← ih r hrn]
        rfl
      | none =>
        rw [getMatches_cons_none hm, List.length_cons, List.range_succ_eq_map,
          List.filterMap_cons]
        have h0 : specOccur (c :: t) 0 = none := by
          simp [specOccur, hm]
        rw [h0, List.filterMap_map]
        have hrest : List.filterMap ((fun i => specOccur (c :: t) i) ∘ Nat.succ)
            (List.range t.length) = (List.range t.length).filterMap (fun i => specOccur t i) := by
          refine List.filterMap_congr ?_
          intro j hj
          rfl
        rw [hrest, ← ih t (by simp only [List.length_cons] at hs; omega)]

end Scan03

namespace Scan03

theorem firstIdx_none_no_occur {pat s : List Char} (h : firstIdx pat s = none) :
    ∀ j, pat.isPrefixOf (s.drop j) = false := by
  induction s with
  | nil =>
    intro j
    rw [firstIdx] at h
    split at h
    · cases h
    · rw [List.drop_nil]
      rename_i hp
      exact Bool.not_eq_true _ |>.mp hp
  | cons c t ih =>
    intro j
    rw [firstIdx] at h
    split at h
    · cases h
    · rename_i hp
      cases j with
      | zero =>
        rw [List.drop_zero]
        exact Bool.not_eq_true _ |>.mp hp
      | succ j =>
        rw [List.drop_succ_cons]
        refine ih ?_ j
        cases hfi : firstIdx pat t with
        | none => rfl
        | some m => rw [hfi] at h; cases h

theorem dont7_prefix_dont5 {s : List Char} (h : dontPat7.isPrefixOf s = true) :
    dontPat5.isPrefixOf s = true := by
  rw [List.isPrefixOf_iff_prefix] at h ⊢
  exact List.IsPrefix.trans (List.isPrefixOf_iff_prefix.mp (by decide)) h

theorem partTwo_enabled_inner_none {s : List Char} {k : Nat}
    (h7 : firstIdx dontPat7 s = some k) (h5 : firstIdx dontPat5 s = none) :
    partTwo s true = partOne s := by
  exfalso
  have h1 := dont7_prefix_dont5 (firstIdx_isPrefixOf h7)
  have h2 := firstIdx_none_no_occur h5 k
  rw [h1] at h2
  cases h2

theorem partTwo_bounds_aux :
    ∀ n, ∀ (s : List Char) (e : Bool),
      2 * s.length +
        (if e then (if doPat4.isPrefixOf s then 0 else 1)
         else (if dontPat5.isPrefixOf s then 0 else 1)) ≤ n →
      0 ≤ partTwo s e ∧ partTwo s e ≤ partOne s := by
  intro n
  induction n with
  | zero =>
    intro s e hn
    exfalso
    cases s with
    | nil =>
      cases e with
      | true => simp [show doPat4.isPrefixOf ([] : List Char) = false from by decide] at hn
      | false => simp [show dontPat5.isPrefixOf ([] : List Char) = false from by decide] at hn
    | cons c t =>
      simp only [List.length_cons] at hn
      split at hn <;> omega
  | succ n ih =>
    intro s e hn
    cases e with
    | true =>
      replace hn : 2 * s.length + (if doPat4.isPrefixOf s then 0 else 1) ≤ n + 1 := by
        simpa using hn
      cases h7 : firstIdx dontPat7 s with
      | none =>
        rw [partTwo_enabled_none h7]
        exact ⟨partOne_nonneg s, le_refl _⟩
      | some k =>
        cases h5 : firstIdx dontPat5 s with
        | none =>
          rw [partTwo_enabled_inner_none h7 h5]
          exact ⟨partOne_nonneg s, le_refl _⟩
        | some i =>
          rw [partTwo_enabled_split h7 h5]
          have hd : dontPat5.isPrefixOf (s.drop i) = true := firstIdx_isPrefixOf h5
          have hle : i ≤ s.length := firstIdx_le_length h5
          have hflag : (if (false : Bool) = true then (if doPat4.isPrefixOf (s.drop i) then 0 else 1)
              else (if dontPat5.isPrefixOf (s.drop i) then 0 else 1)) = 0 := by
            simp [hd]
          have harg : 2 * (s.drop i).length +
              (if (false : Bool) = true then (if doPat4.isPrefixOf (s.drop i) then 0 else 1)
               else (if dontPat5.isPrefixOf (s.drop i) then 0 else 1)) ≤ n := by
            rw [hflag, List.length_drop]
            rcases Nat.eq_zero_or_pos i with hi | hi
            · subst hi
              rw [List.drop_zero] at hd
              rw [dont5_not_do4 hd] at hn
              simp only [Bool.false_eq_true, if_false] at hn
              omega
            · split at hn <;> omega
          obtain ⟨ih0, ih1⟩ := ih (s.drop i) false harg
          have hsplit := partOne_split_le s i
          have htk := partOne_nonneg (s.take i)
          constructor
          · linarith
          · linarith
    | false =>
      replace hn : 2 * s.length + (if dontPat5.isPrefixOf s then 0 else 1) ≤ n + 1 := by
        simpa using hn
      cases h4 : firstIdx doPat4 s with
      | none =>
        rw [partTwo_disabled_none h4]
        exact ⟨le_refl _, partOne_nonneg s⟩
      | some j =>
        rw [partTwo_disabled_jump h4]
        have hd : doPat4.isPrefixOf (s.drop j) = true := firstIdx_isPrefixOf h4
        have hle : j ≤ s.length := firstIdx_le_length h4
        have hflag : (if (true : Bool) = true then (if doPat4.isPrefixOf (s.drop j) then 0 else 1)
            else (if dontPat5.isPrefixOf (s.drop j) then 0 else 1)) = 0 := by
          simp [hd]
        have harg : 2 * (s.drop j).length +
            (if (true : Bool) = true then (if doPat4.isPrefixOf (s.drop j) then 0 else 1)
             else (if dontPat5.isPrefixOf (s.drop j) then 0 else 1)) ≤ n := by
          rw [hflag, List.length_drop]
          rcases Nat.eq_zero_or_pos j with hj | hj
          · subst hj
            rw [List.drop_zero] at hd
            rw [do4_not_dont5 hd] at hn
            simp only [Bool.false_eq_true, if_false] at hn
            omega
          · split at hn <;> omega
        obtain ⟨ih0, ih1⟩ := ih (s.drop j) true harg
        have hdrop := partOne_drop_le s j
        exact ⟨ih0, le_trans ih1 hdrop⟩

end Scan03

namespace Scan03

theorem firstIdx_some_min {pat s : List Char} {i : Nat}
    (h : firstIdx pat s = some i) : ∀ p < i, pat.isPrefixOf (s.drop p) = false := by
  induction s generalizing i with
  | nil =>
    intro p hp
    rw [firstIdx] at h
    split at h
    · simp only [Option.some.injEq] at h
      omega
    · cases h
  | cons c t ih =>
    intro p hp
    rw [firstIdx] at h
    split at h
    · simp only [Option.some.injEq] at h
      omega
    · rename_i hp0
      simp only [Option.map_eq_some'] at h
      obtain ⟨j, hj, rfl⟩ := h
      cases p with
      | zero =>
        rw [List.drop_zero]
        exact Bool.not_eq_true _ |>.mp hp0
      | succ p =>
        rw [List.drop_succ_cons]
        exact ih hj p (by omega)

theorem cons_not_prefix (pat : List Char) (x : Char) (xs : List Char)
    (hp : 0 < pat.length) (hx : pat.getD 0 ' ' ≠ x) :
    pat.isPrefixOf (x :: xs) = false := by
  by_contra h
  simp only [Bool.not_eq_false] at h
  have he := prefix_getD_eq h 0 hp
  rw [List.getD_cons_zero] at he
  exact hx he.symm

theorem do4_not_dont7 {s : List Char} (h : doPat4.isPrefixOf s = true) :
    dontPat7.isPrefixOf s = false :=
  prefix_clash 2 (by decide) (by decide) (by decide) h

theorem goodDont_all {s : List Char} (h : goodDont s) :
    ∀ i, dontPat5.isPrefixOf (s.drop i) = true → dontPat7.isPrefixOf (s.drop i) = true := by
  intro i hp
  by_cases hi : i < s.length
  · exact h i hi hp
  · exfalso
    rw [List.drop_eq_nil_of_le (by omega)] at hp
    exact absurd hp (by decide)

theorem specScan_no_dont_aux :
    ∀ n, ∀ s : List Char, s.length ≤ n →
      (∀ p, dontPat5.isPrefixOf (s.drop p) = false) →
      specScan s true = partOne s := by
  intro n
  induction n with
  | zero =>
    intro s hs hnd
    have hnil : s = [] := by
      cases s with
      | nil => rfl
      | cons c t => simp at hs
    subst hnil
    rw [specScan_nil, partOne_nil]
  | succ n ih =>
    intro s hs hnd
    cases s with
    | nil => rw [specScan_nil, partOne_nil]
    | cons c t =>
      have h7 : dontPat7.isPrefixOf (c :: t) = false := by
        cases hc7 : dontPat7.isPrefixOf (c :: t) with
        | false => rfl
        | true =>
          have := hnd 0
          rw [List.drop_zero] at this
          rw [dont7_prefix_dont5 hc7] at this
          cases this
      cases h4 : doPat4.isPrefixOf (c :: t) with
      | true =>
        obtain ⟨rest, heq⟩ := List.isPrefixOf_iff_prefix.mp h4
        rw [specScan_do4 true (by simp) h7 h4]
        have hdrop4 : (c :: t).drop 4 = rest := by
          rw [← heq, List.drop_append_eq_append_drop,
            show List.drop 4 doPat4 = [] from by decide,
            show 4 - doPat4.length = 0 from by decide, List.nil_append, List.drop_zero]
        rw [hdrop4]
        have hpone : partOne (c :: t) = partOne rest := by
          rw [← heq]
          exact partOne_append_ne_m rest (by decide)
        rw [hpone]
        have hlen : rest.length ≤ n := by
          have := congrArg List.length heq
          simp only [List.length_append, List.length_cons] at this hs
          rw [show doPat4.length = 4 from by decide] at this
          omega
        refine ih rest hlen ?_
        intro p
        have := hnd (4 + p)
        rw [← heq, List.drop_append_eq_append_drop,
          show List.drop (4 + p) doPat4 = [] from by
            refine List.drop_eq_nil_of_le ?_
            rw [show doPat4.length = 4 from by decide]
            omega,
          show 4 + p - doPat4.length = p from by
            rw [show doPat4.length = 4 from by decide]
            omega,
          List.nil_append] at this
        exact this
      | false =>
        cases hm : tryMul (c :: t) with
        | some x =>
          obtain ⟨a, b, r⟩ := x
          obtain ⟨d1, d2, hsh, hd1, hd2, hg1, hg2, ha, hb⟩ := tryMul_some_shape hm
          rw [specScan_mul (by simp) h7 h4 hm]
          have hpone : partOne (c :: t) =
              ((valDigits d1 : Nat) : Int) * ((valDigits d2 : Nat) : Int) + partOne r := by
            rw [hsh]
            exact partOne_cons_mulCore r hd1 hd2 hg1 hg2
          rw [hpone, ha, hb]
          have hrn : r.length ≤ n := by
            have := tryMul_rest_length hm
            simp only [List.length_cons] at this hs
            omega
          have hrest : ∀ p, dontPat5.isPrefixOf (r.drop p) = false := by
            intro p
            have := hnd ((mulCore d1 d2).length + p)
            rw [hsh, List.drop_append_eq_append_drop,
              List.drop_eq_nil_of_le (Nat.le_add_right _ _), List.nil_append,
              show (mulCore d1 d2).length + p - (mulCore d1 d2).length = p from by omega]
              at this
            exact this
          rw [ih r hrn hrest]
        | none =>
          rw [specScan_step_true (by simp) h7 h4 hm, List.drop_one, List.tail_cons,
            partOne_cons_none hm]
          have htn : t.length ≤ n := by
            simp only [List.length_cons] at hs
            omega
          refine ih t htn ?_
          intro p
          have := hnd (p + 1)
          rw [List.drop_succ_cons] at this
          exact this

end Scan03

namespace Scan03

theorem tryMul_cons_take_none {c : Char} {t : List Char}
    (hm : tryMul (c :: t) = none) (j : Nat) : tryMul (c :: t.take j) = none := by
  cases htm : tryMul (c :: t.take j) with
  | none => rfl
  | some x =>
    exfalso
    obtain ⟨a', b', r'⟩ := x
    have hext := tryMul_extend htm (t.drop j)
    rw [List.cons_append, List.take_append_drop, hm] at hext
    cases hext

theorem dont5_head_ne {x : Char} (xs : List Char) (hx : x ≠ 'd') :
    dontPat5.isPrefixOf (x :: xs) = false := by
  refine cons_not_prefix dontPat5 x xs (by decide) ?_
  intro he
  apply hx
  have hgd : dontPat5.getD 0 ' ' = 'd' := by decide
  rw [hgd] at he
  exact he.symm

theorem specScan_until_dont_aux :
    ∀ n, ∀ s : List Char, s.length ≤ n → ∀ i,
      (∀ p < i, dontPat5.isPrefixOf (s.drop p) = false) →
      dontPat5.isPrefixOf (s.drop i) = true →
      specScan s true = partOne (s.take i) + specScan (s.drop i) true := by
  intro n
  induction n with
  | zero =>
    intro s hs i hmin hd
    have hnil : s = [] := by
      cases s with
      | nil => rfl
      | cons c t => simp at hs
    subst hnil
    rw [List.drop_nil] at hd
    exact absurd hd (by decide)
  | succ n ih =>
    intro s hs i hmin hd
    cases i with
    | zero => rw [List.take_zero, List.drop_zero, partOne_nil, zero_add]
    | succ j =>
      cases s with
      | nil =>
        rw [List.drop_nil] at hd
        exact absurd hd (by decide)
      | cons c t =>
        have h0 : dontPat5.isPrefixOf (c :: t) = false := by
          have := hmin 0 (by omega)
          rwa [List.drop_zero] at this
        have h7 : dontPat7.isPrefixOf (c :: t) = false := by
          cases hc7 : dontPat7.isPrefixOf (c :: t) with
          | false => rfl
          | true =>
            rw [dont7_prefix_dont5 hc7] at h0
            cases h0
        cases h4 : doPat4.isPrefixOf (c :: t) with
        | true =>
          obtain ⟨rest, heq⟩ := List.isPrefixOf_iff_prefix.mp h4
          have hL4 : doPat4.length = 4 := by decide
          have hge : 4 ≤ j + 1 := by
            by_contra hlt
            push_neg at hlt
            obtain ⟨x, xs, hx, hxmem⟩ :=
              drop_append_head doPat4 rest (j + 1) (by omega)
            have hxd : x ≠ 'd' := by
              have hx1 : x ∈ doPat4.drop 1 := mem_drop_of_mem_drop_ge (by omega) hxmem
              have hall : ∀ y ∈ doPat4.drop 1, y ≠ 'd' := by decide
              exact hall x hx1
            rw [← heq, hx, dont5_head_ne xs hxd] at hd
            cases hd
          obtain ⟨i', hi'⟩ : ∃ i', j + 1 = 4 + i' := ⟨j + 1 - 4, by omega⟩
          rw [hi'] at hd hmin ⊢
          rw [specScan_do4 true (by simp) h7 h4]
          have hdrop4 : (c :: t).drop 4 = rest := by
            rw [← heq, List.drop_append_eq_append_drop,
              show List.drop 4 doPat4 = [] from by decide,
              show 4 - doPat4.length = 0 from by decide, List.nil_append, List.drop_zero]
          have htake : (c :: t).take (4 + i') = doPat4 ++ rest.take i' := by
            rw [← heq, List.take_append_eq_append_take,
              List.take_of_length_le (by omega),
              show 4 + i' - doPat4.length = i' from by omega]
          have hdrop : (c :: t).drop (4 + i') = rest.drop i' := by
            rw [← heq, List.drop_append_eq_append_drop,
              List.drop_eq_nil_of_le (by omega), List.nil_append,
              show 4 + i' - doPat4.length = i' from by omega]
          rw [hdrop4, htake, hdrop, partOne_append_ne_m _ (by decide)]
          have hlen : rest.length ≤ n := by
            have := congrArg List.length heq
            simp only [List.length_append, List.length_cons] at this hs
            omega
          refine ih rest hlen i' ?_ ?_
          · intro p hp
            have := hmin (4 + p) (by omega)
            rw [← heq, List.drop_append_eq_append_drop,
              List.drop_eq_nil_of_le (by omega), List.nil_append,
              show 4 + p - doPat4.length = p from by omega] at this
            exact this
          · rw [hdrop] at hd
            exact hd
        | false =>
          cases hm : tryMul (c :: t) with
          | some x =>
            obtain ⟨a, b, r⟩ := x
            obtain ⟨d1, d2, hsh, hd1, hd2, hg1, hg2, ha, hb⟩ := tryMul_some_shape hm
            have hge : (mulCore d1 d2).length ≤ j + 1 := by
              by_contra hlt
              push_neg at hlt
              obtain ⟨x, xs, hx, hxmem⟩ := drop_append_head (mulCore d1 d2) r (j + 1) hlt
              have hxd : x ≠ 'd' :=
                mulCore_ne_d hg1 hg2 x (List.mem_of_mem_drop hxmem)
              rw [hsh, hx, dont5_head_ne xs hxd] at hd
              cases hd
            rw [specScan_mul (by simp) h7 h4 hm]
            have htake : (c :: t).take (j + 1) =
                mulCore d1 d2 ++ r.take (j + 1 - (mulCore d1 d2).length) := by
              rw [hsh, List.take_append_eq_append_take, List.take_of_length_le hge]
            have hdrop : (c :: t).drop (j + 1) = r.drop (j + 1 - (mulCore d1 d2).length) := by
              rw [hsh, List.drop_append_eq_append_drop,
                List.drop_eq_nil_of_le hge, List.nil_append]
            rw [htake, hdrop, partOne_cons_mulCore _ hd1 hd2 hg1 hg2]
            have hrn : r.length ≤ n := by
              have := tryMul_rest_length hm
              simp only [List.length_cons] at this hs
              omega
            have hih := ih r hrn (j + 1 - (mulCore d1 d2).length) ?_ ?_
            · rw [hih, ha, hb, add_assoc]
            · intro p hp
              have := hmin ((mulCore d1 d2).length + p) (by omega)
              rw [hsh, List.drop_append_eq_append_drop,
                List.drop_eq_nil_of_le (Nat.le_add_right _ _), List.nil_append,
                show (mulCore d1 d2).length + p - (mulCore d1 d2).length = p from by omega]
                at this
              exact this
            · rw [hdrop] at hd
              exact hd
          | none =>
            rw [specScan_step_true (by simp) h7 h4 hm, List.drop_one, List.tail_cons,
              List.take_succ_cons, List.drop_succ_cons,
              partOne_cons_none (tryMul_cons_take_none hm j)]
            have htn : t.length ≤ n := by
              simp only [List.length_cons] at hs
              omega
            refine ih t htn j ?_ ?_
            · intro p hp
              have := hmin (p + 1) (by omega)
              rwa [List.drop_succ_cons] at this
            · rwa [List.drop_succ_cons] at hd

end Scan03

namespace Scan03

theorem do4_head_ne {x : Char} (xs : List Char) (hx : x ≠ 'd') :
    doPat4.isPrefixOf (x :: xs) = false := by
  refine cons_not_prefix doPat4 x xs (by decide) ?_
  intro he
  apply hx
  have hgd : doPat4.getD 0 ' ' = 'd' := by decide
  rw [hgd] at he
  exact he.symm

theorem specScan_disabled_no_do_aux :
    ∀ n, ∀ s : List Char, s.length ≤ n →
      (∀ p, doPat4.isPrefixOf (s.drop p) = false) →
      specScan s false = 0 := by
  intro n
  induction n with
  | zero =>
    intro s hs hnd
    have hnil : s = [] := by
      cases s with
      | nil => rfl
      | cons c t => simp at hs
    subst hnil
    rw [specScan_nil]
  | succ n ih =>
    intro s hs hnd
    cases s with
    | nil => rw [specScan_nil]
    | cons c t =>
      have h4 : doPat4.isPrefixOf (c :: t) = false := by
        have := hnd 0
        rwa [List.drop_zero] at this
      cases h7 : dontPat7.isPrefixOf (c :: t) with
      | true =>
        obtain ⟨rest, heq⟩ := List.isPrefixOf_iff_prefix.mp h7
        have hL7 : dontPat7.length = 7 := by decide
        rw [specScan_dont7 false (by simp) h7]
        have hdrop7 : (c :: t).drop 7 = rest := by
          rw [← heq, List.drop_append_eq_append_drop,
            show List.drop 7 dontPat7 = [] from by decide,
            show 7 - dontPat7.length = 0 from by decide, List.nil_append, List.drop_zero]
        rw [hdrop7]
        have hlen : rest.length ≤ n := by
          have := congrArg List.length heq
          simp only [List.length_append, List.length_cons] at this hs
          omega
        refine ih rest hlen ?_
        intro p
        have := hnd (7 + p)
        rw [← heq, List.drop_append_eq_append_drop,
          List.drop_eq_nil_of_le (by omega), List.nil_append,
          show 7 + p - dontPat7.length = p from by omega] at this
        exact this
      | false =>
        rw [specScan_step_false (by simp) h7 h4, List.drop_one, List.tail_cons]
        refine ih t (by simp only [List.length_cons] at hs; omega) ?_
        intro p
        have := hnd (p + 1)
        rwa [List.drop_succ_cons] at this

theorem specScan_disabled_until_do_aux :
    ∀ n, ∀ s : List Char, s.length ≤ n → ∀ j,
      (∀ p < j, doPat4.isPrefixOf (s.drop p) = false) →
      doPat4.isPrefixOf (s.drop j) = true →
      specScan s false = specScan (s.drop j) false := by
  intro n
  induction n with
  | zero =>
    intro s hs j hmin hd
    have hnil : s = [] := by
      cases s with
      | nil => rfl
      | cons c t => simp at hs
    subst hnil
    rw [List.drop_nil] at hd
    exact absurd hd (by decide)
  | succ n ih =>
    intro s hs j hmin hd
    cases j with
    | zero => rw [List.drop_zero]
    | succ j =>
      cases s with
      | nil =>
        rw [List.drop_nil] at hd
        exact absurd hd (by decide)
      | cons c t =>
        have h4 : doPat4.isPrefixOf (c :: t) = false := by
          have := hmin 0 (by omega)
          rwa [List.drop_zero] at this
        cases h7 : dontPat7.isPrefixOf (c :: t) with
        | true =>
          obtain ⟨rest, heq⟩ := List.isPrefixOf_iff_prefix.mp h7
          have hL7 : dontPat7.length = 7 := by decide
          have hge : 7 ≤ j + 1 := by
            by_contra hlt
            push_neg at hlt
            obtain ⟨x, xs, hx, hxmem⟩ :=
              drop_append_head dontPat7 rest (j + 1) (by omega)
            have hxd : x ≠ 'd' := by
              have hx1 : x ∈ dontPat7.drop 1 := mem_drop_of_mem_drop_ge (by omega) hxmem
              have hall : ∀ y ∈ dontPat7.drop 1, y ≠ 'd' := by decide
              exact hall x hx1
            rw [← heq, hx, do4_head_ne xs hxd] at hd
            cases hd
          obtain ⟨j', hj'⟩ : ∃ j', j + 1 = 7 + j' := ⟨j + 1 - 7, by omega⟩
          rw [hj'] at hd hmin ⊢
          rw [specScan_dont7 false (by simp) h7]
          have hdrop7 : (c :: t).drop 7 = rest := by
            rw [← heq, List.drop_append_eq_append_drop,
              show List.drop 7 dontPat7 = [] from by decide,
              show 7 - dontPat7.length = 0 from by decide, List.nil_append, List.drop_zero]
          have hdropj : (c :: t).drop (7 + j') = rest.drop j' := by
            rw [← heq, List.drop_append_eq_append_drop,
              List.drop_eq_nil_of_le (by omega), List.nil_append,
              show 7 + j' - dontPat7.length = j' from by omega]
          rw [hdrop7, hdropj]
          have hlen : rest.length ≤ n := by
            have := congrArg List.length heq
            simp only [List.length_append, List.length_cons] at this hs
            omega
          refine ih rest hlen j' ?_ ?_
          · intro p hp
            have := hmin (7 + p) (by omega)
            rw [← heq, List.drop_append_eq_append_drop,
              List.drop_eq_nil_of_le (by omega), List.nil_append,
              show 7 + p - dontPat7.length = p from by omega] at this
            exact this
          · rw [hdropj] at hd
            exact hd
        | false =>
          rw [specScan_step_false (by simp) h7 h4, List.drop_one, List.tail_cons,
            List.drop_succ_cons]
          refine ih t (by simp only [List.length_cons] at hs; omega) j ?_ ?_
          · intro p hp
            have := hmin (p + 1) (by omega)
            rwa [List.drop_succ_cons] at this
          · rwa [List.drop_succ_cons] at hd

end Scan03

namespace Scan03

theorem partTwo_eq_specScan_aux :
    ∀ n, ∀ (s : List Char) (e : Bool),
      2 * s.length +
        (if e then (if doPat4.isPrefixOf s then 0 else 1)
         else (if dontPat5.isPrefixOf s then 0 else 1)) ≤ n →
      (∀ i, dontPat5.isPrefixOf (s.drop i) = true →
        dontPat7.isPrefixOf (s.drop i) = true) →
      partTwo s e = specScan s e := by
  intro n
  induction n with
  | zero =>
    intro s e hn hU
    exfalso
    cases s with
    | nil =>
      cases e with
      | true => simp [show doPat4.isPrefixOf ([] : List Char) = false from by decide] at hn
      | false => simp [show dontPat5.isPrefixOf ([] : List Char) = false from by decide] at hn
    | cons c t =>
      simp only [List.length_cons] at hn
      split at hn <;> omega
  | succ n ih =>
    intro s e hn hU
    cases e with
    | true =>
      replace hn : 2 * s.length + (if doPat4.isPrefixOf s then 0 else 1) ≤ n + 1 := by
        simpa using hn
      cases h7 : firstIdx dontPat7 s with
      | none =>
        rw [partTwo_enabled_none h7]
        refine (specScan_no_dont_aux s.length s le_rfl ?_).symm
        intro p
        cases hc : dontPat5.isPrefixOf (s.drop p) with
        | false => rfl
        | true =>
          have := firstIdx_none_no_occur h7 p
          rw [hU p hc] at this
          cases this
      | some k =>
        cases h5 : firstIdx dontPat5 s with
        | none =>
          exfalso
          have h1 := dont7_prefix_dont5 (firstIdx_isPrefixOf h7)
          have h2 := firstIdx_none_no_occur h5 k
          rw [h1] at h2
          cases h2
        | some i =>
          rw [partTwo_enabled_split h7 h5]
          have hdi5 := firstIdx_isPrefixOf h5
          have hmin := firstIdx_some_min h5
          have hle : i ≤ s.length := firstIdx_le_length h5
          have hLB := specScan_until_dont_aux s.length s le_rfl i hmin hdi5
          have hdi7 := hU i hdi5
          have hne : s.drop i ≠ [] := by
            intro he
            rw [he] at hdi7
            exact absurd hdi7 (by decide)
          have hs1 := specScan_dont7 true hne hdi7
          have hs2 := specScan_dont7 false hne hdi7
          have hflag : (if (false : Bool) = true then (if doPat4.isPrefixOf (s.drop i) then 0 else 1)
              else (if dontPat5.isPrefixOf (s.drop i) then 0 else 1)) = 0 := by
            simp [hdi5]
          have harg : 2 * (s.drop i).length +
              (if (false : Bool) = true then (if doPat4.isPrefixOf (s.drop i) then 0 else 1)
               else (if dontPat5.isPrefixOf (s.drop i) then 0 else 1)) ≤ n := by
            rw [hflag, List.length_drop]
            rcases Nat.eq_zero_or_pos i with hi | hi
            · subst hi
              rw [List.drop_zero] at hdi5
              rw [dont5_not_do4 hdi5] at hn
              simp only [Bool.false_eq_true, if_false] at hn
              omega
            · split at hn <;> omega
          have hU' : ∀ p, dontPat5.isPrefixOf ((s.drop i).drop p) = true →
              dontPat7.isPrefixOf ((s.drop i).drop p) = true := by
            intro p
            rw [List.drop_drop]
            exact hU (i + p)
          have hIH := ih (s.drop i) false harg hU'
          rw [hIH, hs2, hLB, hs1]
    | false =>
      replace hn : 2 * s.length + (if dontPat5.isPrefixOf s then 0 else 1) ≤ n + 1 := by
        simpa using hn
      cases h4 : firstIdx doPat4 s with
      | none =>
        rw [partTwo_disabled_none h4]
        exact (specScan_disabled_no_do_aux s.length s le_rfl (firstIdx_none_no_occur h4)).symm
      | some j =>
        rw [partTwo_disabled_jump h4]
        have hd4 := firstIdx_isPrefixOf h4
        have hmin := firstIdx_some_min h4
        have hle : j ≤ s.length := firstIdx_le_length h4
        have hLD := specScan_disabled_until_do_aux s.length s le_rfl j hmin hd4
        have h7' : dontPat7.isPrefixOf (s.drop j) = false := do4_not_dont7 hd4
        have hne : s.drop j ≠ [] := by
          intro he
          rw [he] at hd4
          exact absurd hd4 (by decide)
        have hs1 := specScan_do4 false hne h7' hd4
        have hs2 := specScan_do4 true hne h7' hd4
        have hflag : (if (true : Bool) = true then (if doPat4.isPrefixOf (s.drop j) then 0 else 1)
            else (if dontPat5.isPrefixOf (s.drop j) then 0 else 1)) = 0 := by
          simp [hd4]
        have harg : 2 * (s.drop j).length +
            (if (true : Bool) = true then (if doPat4.isPrefixOf (s.drop j) then 0 else 1)
             else (if dontPat5.isPrefixOf (s.drop j) then 0 else 1)) ≤ n := by
          rw [hflag, List.length_drop]
          rcases Nat.eq_zero_or_pos j with hj | hj
          · subst hj
            rw [List.drop_zero] at hd4
            rw [do4_not_dont5 hd4] at hn
            simp only [Bool.false_eq_true, if_false] at hn
            omega
          · split at hn <;> omega
        have hU' : ∀ p, dontPat5.isPrefixOf ((s.drop j).drop p) = true →
            dontPat7.isPrefixOf ((s.drop j).drop p) = true := by
          intro p
          rw [List.drop_drop]
          exact hU (j + p)
        have hIH := ih (s.drop j) true harg hU'
        rw [hIH, hs2, hLD, hs1]

/-- Claim C2 as amended: the recursive substring-splitting implementation
realizes the left-to-right toggle scan exactly on memory texts in which
every occurrence of `don't` is an occurrence of `don't()`.  (As stated
the claim fails: the source splits at `strings.Index(memory, "don't")`,
the bare five-character pattern, so a bare `don't` before the first
`don't()` disables summation early — see the counterexample.) -/
theorem partTwo_eq_specScan_of_goodDont (s : List Char) (h : Scan03.goodDont s) :
    Scan03.partTwo s true = Scan03.specScan s true :=
  partTwo_eq_specScan_aux
    (2 * s.length + (if doPat4.isPrefixOf s then 0 else 1)) s true (by simp)
    (goodDont_all h)

/-- Witness for the amended claim C2 on a memory text with both kinds of
toggles and no bare `don't`. -/
theorem partTwo_specScan_witness :
    Scan03.partTwo (("xmul(2,4)don't()_mul(5,5)do()mul(8,5)").data) true =
      Scan03.specScan (("xmul(2,4)don't()_mul(5,5)do()mul(8,5)").data) true :=
  partTwo_eq_specScan_of_goodDont _ (by decide)

/-- Counterexample to claim C2 as stated: on `don'tmul(1,1)don't()` the
recursive implementation returns 0 — the bare `don't` at position 0 makes
it split there and go disabled — while the left-to-right toggle scan,
which only disables at the full `don't()`, counts `mul(1,1)` and returns
1. -/
theorem partTwo_bare_dont_cex :
    Scan03.partTwo (("don'tmul(1,1)don't()").data) true = 0 ∧
    Scan03.specScan (("don'tmul(1,1)don't()").data) true = 1 :=
  ⟨partTwo_cex, specScan_cex⟩

end Scan03

namespace Scan03

/-- Two's-complement wraparound into Go's signed 64-bit `int` range. -/
def wrap64 (x : Int) : Int := (x + 2 ^ 63) % 2 ^ 64 - 2 ^ 63

/-- Loop body of the bit-exact `partOne` (03.go:36-42): each capture is
converted with `strconv.Atoi` — for the nonempty digit-run captures this
fails exactly when the value exceeds `int64Max` (`goAtoi_digit_run`), and
a failed conversion skips the match (`continue`) — then `sum += a * b` is
computed in Go's wrapping 64-bit arithmetic. -/
def mulStep (sum : Int) (p : Nat × Nat) : Int :=
  if p.1 ≤ int64Max ∧ p.2 ≤ int64Max then
    wrap64 (sum + wrap64 (((p.1 : Nat) : Int) * ((p.2 : Nat) : Int)))
  else sum

/-- The scanner's `partOne`, bit-exact. -/
def partOne64 (s : List Char) : Int := (getMatches s).foldl mulStep 0

/-- The scanner's `partTwo`, bit-exact: the same recursion as `partTwo`,
with the pieces computed by `partOne64` and the one addition performed in
wrapping 64-bit arithmetic. -/
def partTwo64 (s : List Char) (enabled : Bool) : Int :=
  if enabled then
    match firstIdx dontPat7 s with
    | some _ =>
      match h : firstIdx dontPat5 s with
      | some i => wrap64 (partOne64 (s.take i) + partTwo64 (s.drop i) false)
      | none => partOne64 s
    | none => partOne64 s
  else
    match h : firstIdx doPat4 s with
    | some i => partTwo64 (s.drop i) true
    | none => 0
termination_by
  2 * s.length +
    (if enabled then (if doPat4.isPrefixOf s then 0 else 1)
     else (if dontPat5.isPrefixOf s then 0 else 1))
decreasing_by
  · have hd : dontPat5.isPrefixOf (s.drop i) = true := firstIdx_isPrefixOf h
    have hle : i ≤ s.length := firstIdx_le_length h
    cases enabled with
    | false => simp_all
    | true =>
      rcases Nat.eq_zero_or_pos i with hi | hi
      · subst hi
        simp only [List.drop_zero] at hd ⊢
        simp [hd, dont5_not_do4 hd]
      · simp only [List.length_drop]
        (repeat' split) <;> omega
  · have hd : doPat4.isPrefixOf (s.drop i) = true := firstIdx_isPrefixOf h
    have hle : i ≤ s.length := firstIdx_le_length h
    cases enabled with
    | true => simp_all
    | false =>
      rcases Nat.eq_zero_or_pos i with hi | hi
      · subst hi
        simp only [List.drop_zero] at hd ⊢
        simp [hd, do4_not_dont5 hd]
      · simp only [List.length_drop]
        (repeat' split) <;> omega

/-- On a nonempty digit run — the shape of every `mul` capture —
`strconv.Atoi` succeeds exactly when the run's value fits Go's `int`, so
`mulStep`'s range test is the source's Atoi-error test. -/
theorem goAtoi_digit_run (c : Char) (t : List Char)
    (h2 : (c :: t).all Char.isDigit = true) :
    (goAtoi (String.mk (c :: t))).isOk = decide (valDigits (c :: t) ≤ int64Max) := by
  have hcd : c.isDigit = true := List.all_eq_true.mp h2 c (List.mem_cons_self ..)
  have hc1 : c ≠ '+' := digit_ne c '+' hcd (by decide)
  have hc2 : c ≠ '-' := digit_ne c '-' hcd (by decide)
  have hstep : goAtoi (String.mk (c :: t)) = atoiDigits false (c :: t) := by
    show (if c = '+' then atoiDigits false t
      else if c = '-' then atoiDigits true t
      else atoiDigits false (c :: t)) = atoiDigits false (c :: t)
    rw [if_neg hc1, if_neg hc2]
  rw [hstep]
  have hbody : atoiDigits false (c :: t) =
      if valDigits (c :: t) ≤ int64Max then
        Except.ok ((valDigits (c :: t) : Nat) : Int)
      else Except.error "value out of range" := by
    rw [atoiDigits, if_pos ⟨by simp, h2⟩]
    simp
  rw [hbody]
  by_cases hr : valDigits (c :: t) ≤ int64Max
  · rw [if_pos hr]
    simp [Except.isOk, Except.toBool, hr]
  · rw [if_neg hr]
    simp [Except.isOk, Except.toBool, hr]

theorem getMatches_eq_cons {s : List Char} {a b : Nat} {r : List Char}
    (h : tryMul s = some (a, b, r)) : getMatches s = (a, b) :: getMatches r := by
  cases s with
  | nil =>
    rw [show tryMul [] = none from rfl] at h
    cases h
  | cons c t => exact getMatches_cons_some h

end Scan03

namespace Scan03

theorem partTwo64_enabled_split {s : List Char} {j i : Nat}
    (h7 : firstIdx dontPat7 s = some j) (h5 : firstIdx dontPat5 s = some i) :
    partTwo64 s true = wrap64 (partOne64 (s.take i) + partTwo64 (s.drop i) false) := by
  rw [partTwo64]
  rw [if_pos rfl]
  split
  · split
    · rename_i heq
      rw [h5] at heq
      simp only [Option.some.injEq] at heq
      subst heq
      rfl
    · rename_i heq
      rw [h5] at heq
      cases heq
  · rename_i heq
    rw [h7] at heq
    cases heq

theorem partTwo64_enabled_none {s : List Char}
    (h7 : firstIdx dontPat7 s = none) : partTwo64 s true = partOne64 s := by
  rw [partTwo64]
  rw [if_pos rfl]
  split
  · rename_i j heq
    rw [h7] at heq
    cases heq
  · rfl

theorem partTwo64_disabled_jump {s : List Char} {i : Nat}
    (h : firstIdx doPat4 s = some i) : partTwo64 s false = partTwo64 (s.drop i) true := by
  rw [partTwo64]
  rw [if_neg (by simp)]
  split
  · rename_i heq
    rw [h] at heq
    simp only [Option.some.injEq] at heq
    subst heq
    rfl
  · rename_i heq
    rw [h] at heq
    cases heq

theorem partTwo64_disabled_none {s : List Char}
    (h : firstIdx doPat4 s = none) : partTwo64 s false = 0 := by
  rw [partTwo64]
  rw [if_neg (by simp)]
  split
  · rename_i heq
    rw [h] at heq
    cases heq
  · rfl

/-- Counterexample to claim C6 as stated: on
`mul(99999999999999999999,1)` the matched capture does not fit Go's
`int`, its `strconv.Atoi` conversion fails (`ErrRange`) and the source's
`partOne` skips the match and returns 0, not the sum of `X*Y` over all
matches of the pattern. -/
theorem partOne64_overflow_cex :
    Scan03.partOne64 (("mul(99999999999999999999,1)").data) = 0 ∧
    ((Scan03.getMatches (("mul(99999999999999999999,1)").data)).map
      (fun p => ((p.1 : Nat) : Int) * ((p.2 : Nat) : Int))).sum = 99999999999999999999 := by
  have h1 : getMatches (("mul(99999999999999999999,1)").data) =
      [(99999999999999999999, 1)] := by
    rw [getMatches_eq_cons
      (show tryMul (("mul(99999999999999999999,1)").data) =
        some (99999999999999999999, 1, []) from by decide), getMatches_nil]
  constructor
  · rw [partOne64, h1]
    decide
  · rw [h1]
    decide

/-- Claim C6 as amended: `getMatches` enumerates exactly the occurrences
of the `mul(X,Y)` pattern at every position of the memory text, in order
of appearance and independent of any `do()`/`don't()` marker, and the
bit-exact `partOne` folds over those occurrences the source's loop body:
a match whose capture exceeds the int64 range is skipped (its `Atoi`
conversion fails), every other match's product is added in wrapping
64-bit arithmetic.  (As stated the claim fails: a match with an
out-of-range capture is not summed — see the counterexample.) -/
theorem partOne64_characterization (s : List Char) :
    Scan03.getMatches s = (List.range s.length).filterMap (fun i => Scan03.specOccur s i) ∧
    Scan03.partOne64 s =
      ((List.range s.length).filterMap (fun i => Scan03.specOccur s i)).foldl mulStep 0 := by
  have h := getMatches_eq_filterMap_aux s.length s le_rfl
  exact ⟨h, by rw [partOne64, h]⟩

end Scan03

namespace Scan03

/-- Counterexample to claim C10 as stated: with Go's wrapping 64-bit
arithmetic, `mul(4000000000,4000000000)` drives Part 2 negative, and on
`mul(1,1)don't()mul(4000000000,4000000000)` Part 2 (= 1) exceeds the
wrapped-negative Part 1. -/
theorem partTwo64_bounds_cex :
    Scan03.partTwo64 (("mul(4000000000,4000000000)").data) true < 0 ∧
    ¬ (Scan03.partTwo64 (("mul(1,1)don't()mul(4000000000,4000000000)").data) true ≤
       Scan03.partOne64 (("mul(1,1)don't()mul(4000000000,4000000000)").data)) := by
  have hC : Scan03.partTwo64 (("mul(4000000000,4000000000)").data) true =
      -2446744073709551616 := by
    rw [partTwo64_enabled_none (by decide)]
    rw [partOne64, getMatches_eq_cons
      (show tryMul (("mul(4000000000,4000000000)").data) =
        some (4000000000, 4000000000, []) from by decide), getMatches_nil]
    decide
  have hA : Scan03.partTwo64 (("mul(1,1)don't()mul(4000000000,4000000000)").data) true =
      1 := by
    rw [partTwo64_enabled_split
      (show firstIdx dontPat7 (("mul(1,1)don't()mul(4000000000,4000000000)").data) =
        some 8 from by decide)
      (show firstIdx dontPat5 (("mul(1,1)don't()mul(4000000000,4000000000)").data) =
        some 8 from by decide)]
    rw [show (("mul(1,1)don't()mul(4000000000,4000000000)").data).take 8 =
      ("mul(1,1)").data from by decide]
    rw [show (("mul(1,1)don't()mul(4000000000,4000000000)").data).drop 8 =
      ("don't()mul(4000000000,4000000000)").data from by decide]
    rw [partTwo64_disabled_none (by decide)]
    rw [partOne64, getMatches_eq_cons
      (show tryMul (("mul(1,1)").data) = some (1, 1, []) from by decide), getMatches_nil]
    decide
  have hB : Scan03.partOne64 (("mul(1,1)don't()mul(4000000000,4000000000)").data) =
      -2446744073709551615 := by
    rw [partOne64, getMatches_eq_cons
      (show tryMul (("mul(1,1)don't()mul(4000000000,4000000000)").data) =
        some (1, 1, ("don't()mul(4000000000,4000000000)").data) from by decide)]
    rw [show ("don't()mul(4000000000,4000000000)").data =
      ("don't()").data ++ ("mul(4000000000,4000000000)").data from by decide]
    rw [getMatches_append_ne_m _ (by decide)]
    rw [getMatches_eq_cons
      (show tryMul (("mul(4000000000,4000000000)").data) =
        some (4000000000, 4000000000, []) from by decide), getMatches_nil]
    decide
  rw [hA, hB, hC]
  decide

end Scan03

namespace Scan03

/-- The function `wrap64` is the identity on values in the `int64` range. -/
theorem wrap64_of_bounds {x : Int} (h1 : -(2 ^ 63) ≤ x) (h2 : x < 2 ^ 63) :
    wrap64 x = x := by
  have e63 : (2 : Int) ^ 63 = 9223372036854775808 := by norm_num
  have e64 : (2 : Int) ^ 64 = 18446744073709551616 := by norm_num
  rw [wrap64, e63, e64]
  rw [e63] at h1 h2
  rw [Int.emod_eq_of_lt (by omega) (by omega)]
  omega

/-- The ideal sum of products of a capture list is nonnegative. -/
theorem sum_prods_nonneg (l : List (Nat × Nat)) :
    0 ≤ (l.map (fun p => ((p.1 : Nat) : Int) * ((p.2 : Nat) : Int))).sum := by
  apply List.sum_nonneg
  intro x hx
  rw [List.mem_map] at hx
  obtain ⟨p, _, hp⟩ := hx
  rw [← hp]
  exact mul_nonneg (Int.natCast_nonneg _) (Int.natCast_nonneg _)

/-- When every capture fits in `int64` and the running total stays within
`int64Max`, the wrapping fold `mulStep` computes the ideal sum. -/
theorem foldl_mulStep_eq :
    ∀ (l : List (Nat × Nat)) (acc : Int), 0 ≤ acc →
      (∀ p ∈ l, p.1 ≤ int64Max ∧ p.2 ≤ int64Max) →
      acc + (l.map (fun p => ((p.1 : Nat) : Int) * ((p.2 : Nat) : Int))).sum ≤
        ((int64Max : Nat) : Int) →
      l.foldl mulStep acc =
        acc + (l.map (fun p => ((p.1 : Nat) : Int) * ((p.2 : Nat) : Int))).sum := by
  intro l
  induction l with
  | nil => intro acc _ _ _; simp
  | cons p l ih =>
    intro acc hacc hcaps hsum
    rw [List.foldl_cons, List.map_cons, List.sum_cons]
    have hpnn : 0 ≤ ((p.1 : Nat) : Int) * ((p.2 : Nat) : Int) :=
      mul_nonneg (Int.natCast_nonneg _) (Int.natCast_nonneg _)
    have hrest : 0 ≤ (l.map (fun p => ((p.1 : Nat) : Int) * ((p.2 : Nat) : Int))).sum :=
      sum_prods_nonneg l
    have hmax : ((int64Max : Nat) : Int) = 9223372036854775807 := by
      rw [int64Max]; norm_num
    rw [List.map_cons, List.sum_cons] at hsum
    have hm63 : ((int64Max : Nat) : Int) < 2 ^ 63 := by rw [hmax]; norm_num
    have hneg63 : -((2 : Int) ^ 63) ≤ 0 := by norm_num
    have hinner : wrap64 (((p.1 : Nat) : Int) * ((p.2 : Nat) : Int)) =
        ((p.1 : Nat) : Int) * ((p.2 : Nat) : Int) :=
      wrap64_of_bounds (by linarith) (by linarith)
    have hstep : mulStep acc p = acc + ((p.1 : Nat) : Int) * ((p.2 : Nat) : Int) := by
      rw [mulStep, if_pos (hcaps p (List.mem_cons_self p l)), hinner]
      rw [wrap64_of_bounds (by linarith) (by linarith)]
    rw [hstep]
    rw [ih (acc + ((p.1 : Nat) : Int) * ((p.2 : Nat) : Int)) (by linarith)
      (fun q hq => hcaps q (List.mem_cons_of_mem p hq)) (by linarith)]
    ring

/-- When no capture overflows and the total stays in range, the wrapping
Part 1 agrees with the ideal Part 1 sum. -/
theorem partOne64_eq_partOne (s : List Char)
    (hcaps : ∀ p ∈ getMatches s, p.1 ≤ int64Max ∧ p.2 ≤ int64Max)
    (hsum : partOne s ≤ ((int64Max : Nat) : Int)) :
    partOne64 s = partOne s := by
  rw [partOne] at hsum
  rw [partOne64, partOne,
    foldl_mulStep_eq (getMatches s) 0 le_rfl hcaps (by rw [zero_add]; exact hsum),
    zero_add]

/-- A spec occurrence in a suffix is a spec occurrence of the whole string,
shifted. -/
theorem specOccur_drop (s : List Char) (k p : Nat) :
    specOccur (s.drop k) p = specOccur s (k + p) := by
  rw [specOccur, specOccur, List.drop_drop]

/-- A spec occurrence in a prefix is a spec occurrence of the whole string. -/
theorem specOccur_take {s : List Char} {k p : Nat} {v : Nat × Nat}
    (h : specOccur (s.take k) p = some v) : specOccur s p = some v := by
  rw [specOccur] at h ⊢
  rw [List.drop_take] at h
  cases htm : tryMul (((s.drop p).take (k - p))) with
  | none => rw [htm] at h; cases h
  | some x =>
    obtain ⟨a, b, r⟩ := x
    rw [htm] at h
    have hext := tryMul_extend htm ((s.drop p).drop (k - p))
    rw [List.take_append_drop] at hext
    rw [hext]
    simpa using h

/-- Every extracted match is a spec occurrence at some position. -/
theorem mem_getMatches_occ {s : List Char} {v : Nat × Nat} (h : v ∈ getMatches s) :
    ∃ i, specOccur s i = some v := by
  rw [getMatches_eq_filterMap_aux s.length s le_rfl] at h
  rw [List.mem_filterMap] at h
  obtain ⟨i, _, hocc⟩ := h
  exact ⟨i, hocc⟩

end Scan03

namespace Scan03

theorem partTwo_bounds_all (s : List Char) (e : Bool) :
    0 ≤ partTwo s e ∧ partTwo s e ≤ partOne s := by
  refine partTwo_bounds_aux (2 * s.length + 1) s e ?_
  have hf : (if e then (if doPat4.isPrefixOf s then 0 else 1)
      else (if dontPat5.isPrefixOf s then 0 else 1)) ≤ 1 := by
    split <;> split <;> omega
  omega

theorem partTwo64_eq_partTwo_aux :
    ∀ n, ∀ (s : List Char) (e : Bool),
      2 * s.length +
        (if e then (if doPat4.isPrefixOf s then 0 else 1)
         else (if dontPat5.isPrefixOf s then 0 else 1)) ≤ n →
      (∀ p (a b : Nat), specOccur s p = some (a, b) →
        a ≤ int64Max ∧ b ≤ int64Max) →
      partOne s ≤ ((int64Max : Nat) : Int) →
      partTwo64 s e = partTwo s e := by
  intro n
  induction n with
  | zero =>
    intro s e hn _ _
    exfalso
    cases s with
    | nil =>
      cases e with
      | true => simp [show doPat4.isPrefixOf ([] : List Char) = false from by decide] at hn
      | false => simp [show dontPat5.isPrefixOf ([] : List Char) = false from by decide] at hn
    | cons c t =>
      simp only [List.length_cons] at hn
      split at hn <;> omega
  | succ n ih =>
    intro s e hn hU hsum
    have hcapsAll : ∀ p ∈ getMatches s, p.1 ≤ int64Max ∧ p.2 ≤ int64Max := by
      intro p hp
      obtain ⟨q, hq⟩ := mem_getMatches_occ hp
      exact hU q p.1 p.2 hq
    cases e with
    | true =>
      replace hn : 2 * s.length + (if doPat4.isPrefixOf s then 0 else 1) ≤ n + 1 := by
        simpa using hn
      cases h7 : firstIdx dontPat7 s with
      | none =>
        rw [partTwo64_enabled_none h7, partTwo_enabled_none h7]
        exact partOne64_eq_partOne s hcapsAll hsum
      | some k =>
        cases h5 : firstIdx dontPat5 s with
        | none =>
          exfalso
          have h1 := dont7_prefix_dont5 (firstIdx_isPrefixOf h7)
          have h2 := firstIdx_none_no_occur h5 k
          rw [h1] at h2
          cases h2
        | some i =>
          rw [partTwo64_enabled_split h7 h5, partTwo_enabled_split h7 h5]
          have hd : dontPat5.isPrefixOf (s.drop i) = true := firstIdx_isPrefixOf h5
          have hle : i ≤ s.length := firstIdx_le_length h5
          have harg : 2 * (s.drop i).length +
              (if (false : Bool) = true then (if doPat4.isPrefixOf (s.drop i) then 0 else 1)
               else (if dontPat5.isPrefixOf (s.drop i) then 0 else 1)) ≤ n := by
            have hflag : (if (false : Bool) = true
                then (if doPat4.isPrefixOf (s.drop i) then 0 else 1)
                else (if dontPat5.isPrefixOf (s.drop i) then 0 else 1)) = 0 := by
              simp [hd]
            rw [hflag, List.length_drop]
            rcases Nat.eq_zero_or_pos i with hi | hi
            · subst hi
              rw [List.drop_zero] at hd
              rw [dont5_not_do4 hd] at hn
              simp only [Bool.false_eq_true, if_false] at hn
              omega
            · split at hn <;> omega
          have hUdrop : ∀ p (a b : Nat), specOccur (s.drop i) p = some (a, b) →
              a ≤ int64Max ∧ b ≤ int64Max := by
            intro p a b hp
            rw [specOccur_drop] at hp
            exact hU (i + p) a b hp
          have hsumdrop : partOne (s.drop i) ≤ ((int64Max : Nat) : Int) :=
            le_trans (partOne_drop_le s i) hsum
          have e2 := ih (s.drop i) false harg hUdrop hsumdrop
          have hcapstake : ∀ p ∈ getMatches (s.take i),
              p.1 ≤ int64Max ∧ p.2 ≤ int64Max := by
            intro p hp
            obtain ⟨q, hq⟩ := mem_getMatches_occ hp
            exact hU q p.1 p.2 (specOccur_take hq)
          have hsplit := partOne_split_le s i
          have hdrop0 := partOne_nonneg (s.drop i)
          have htake0 := partOne_nonneg (s.take i)
          have hsumtake : partOne (s.take i) ≤ ((int64Max : Nat) : Int) := by
            linarith
          have e1 := partOne64_eq_partOne (s.take i) hcapstake hsumtake
          rw [e1, e2]
          obtain ⟨hb0, hb1⟩ := partTwo_bounds_all (s.drop i) false
          have hm63 : ((int64Max : Nat) : Int) < 2 ^ 63 := by
            rw [int64Max]; norm_num
          have hneg63 : -((2 : Int) ^ 63) ≤ 0 := by norm_num
          exact wrap64_of_bounds (by linarith) (by linarith)
    | false =>
      replace hn : 2 * s.length + (if dontPat5.isPrefixOf s then 0 else 1) ≤ n + 1 := by
        simpa using hn
      cases h4 : firstIdx doPat4 s with
      | none =>
        rw [partTwo64_disabled_none h4, partTwo_disabled_none h4]
      | some j =>
        rw [partTwo64_disabled_jump h4, partTwo_disabled_jump h4]
        have hd : doPat4.isPrefixOf (s.drop j) = true := firstIdx_isPrefixOf h4
        have hle : j ≤ s.length := firstIdx_le_length h4
        have harg : 2 * (s.drop j).length +
            (if (true : Bool) = true then (if doPat4.isPrefixOf (s.drop j) then 0 else 1)
             else (if dontPat5.isPrefixOf (s.drop j) then 0 else 1)) ≤ n := by
          have hflag : (if (true : Bool) = true
              then (if doPat4.isPrefixOf (s.drop j) then 0 else 1)
              else (if dontPat5.isPrefixOf (s.drop j) then 0 else 1)) = 0 := by
            simp [hd]
          rw [hflag, List.length_drop]
          rcases Nat.eq_zero_or_pos j with hj | hj
          · subst hj
            rw [List.drop_zero] at hd
            rw [do4_not_dont5 hd] at hn
            simp only [Bool.false_eq_true, if_false] at hn
            omega
          · split at hn <;> omega
        have hUdrop : ∀ p (a b : Nat), specOccur (s.drop j) p = some (a, b) →
            a ≤ int64Max ∧ b ≤ int64Max := by
          intro p a b hp
          rw [specOccur_drop] at hp
          exact hU (j + p) a b hp
        exact ih (s.drop j) true harg hUdrop (le_trans (partOne_drop_le s j) hsum)

end Scan03

namespace Scan03

/-- Claim C10 as amended: with Go's wrapping 64-bit arithmetic, the
bounds hold under a no-overflow hypothesis — whenever every `mul` capture
fits in `int64` and the ideal Part 1 sum is at most `int64Max`, the gated
Part 2 total is nonnegative and never exceeds the ungated Part 1 total.
(Without that hypothesis the bounds fail; see the counterexample.) -/
theorem partTwo64_bounds_of_no_overflow (s : List Char)
    (hcap : ∀ p < s.length, ∀ v ∈ Scan03.specOccur s p,
      v.1 ≤ int64Max ∧ v.2 ≤ int64Max)
    (hsum : Scan03.partOne s ≤ ((int64Max : Nat) : Int)) :
    0 ≤ Scan03.partTwo64 s true ∧
      Scan03.partTwo64 s true ≤ Scan03.partOne64 s := by
  have hU : ∀ p (a b : Nat), specOccur s p = some (a, b) →
      a ≤ int64Max ∧ b ≤ int64Max := by
    intro p a b hp
    by_cases hlt : p < s.length
    · exact hcap p hlt (a, b) hp
    · exfalso
      rw [specOccur, List.drop_eq_nil_of_le (by omega)] at hp
      rw [show tryMul [] = none from rfl] at hp
      cases hp
  have hcapsAll : ∀ p ∈ getMatches s, p.1 ≤ int64Max ∧ p.2 ≤ int64Max := by
    intro p hp
    obtain ⟨q, hq⟩ := mem_getMatches_occ hp
    exact hU q p.1 p.2 hq
  have he2 := partTwo64_eq_partTwo_aux
    (2 * s.length + (if doPat4.isPrefixOf s then 0 else 1)) s true (by simp) hU hsum
  have he1 := partOne64_eq_partOne s hcapsAll hsum
  rw [he1, he2]
  exact partTwo_bounds_all s true

theorem partTwo64_bounds_witness :
    0 ≤ Scan03.partTwo64 (("mul(2,3)").data) true ∧
      Scan03.partTwo64 (("mul(2,3)").data) true ≤
        Scan03.partOne64 (("mul(2,3)").data) := by
  refine partTwo64_bounds_of_no_overflow (("mul(2,3)").data) (by decide) ?_
  rw [partOne, getMatches_eq_cons
    (show tryMul (("mul(2,3)").data) = some (2, 3, []) from by decide), getMatches_nil]
  decide

end Scan03
